import Mathlib

/-!
# Verification of the `mempoor` priority mempool and block builder

Shallow embedding of `pkg/mempoor` (mempool.go, types.go, tx.go, block.go,
builder.go, node.go, rpc handlers) in Lean 4, together with proofs of the
specification claims.

Modelling conventions:
* Go `uint64` values are embedded as `Nat`; additions that can overflow in Go
  (`result.GasUsed += tx.Gas`) are taken modulo `2^64` (`addU64`).
* Go `int` is embedded as `Int` where sign matters (`MaxTx`).
* `time.Time` instants are embedded as `Int` nanoseconds since the Unix epoch
  (`UnixNano`); `Equal`/`Before` become `=`/`<` on `Int`.
* Go's `container/heap` (standard library, outside this repository) is
  modelled by its documented contract: `heap.Pop` returns a minimal element
  under `Less`, i.e. the queue drains in `Less` order.  The heap contents are
  therefore represented as a list kept sorted by the pop order, `heap.Push`
  being insertion into the sorted list and `heap.Pop` taking the head.
* The `table map[TxID]*txRecord` is represented as a list of transactions
  keyed by `id`; map iteration order is irrelevant to every claim (only
  membership and emptiness are observed).
-/

namespace Mempoor

/-- `2^64`, the modulus of Go `uint64` arithmetic. -/
def U64 : Nat := 2 ^ 64

/-- Wrapping `uint64` addition, as performed by Go on `GasUsed + Gas`. -/
def addU64 (a b : Nat) : Nat := (a + b) % U64

/-- `Tx` from types.go.  `CreatedAt`/`Timestamp` are `UnixNano` instants. -/
structure Tx where
  id : String
  sender : String
  recipient : String
  fee : Nat
  gas : Nat
  payload : String
  createdAt : Int
  timestamp : Int
deriving DecidableEq, Repr

/-- `txHeap.Less` from mempool.go: higher fee first, then earlier timestamp,
then lexicographically smaller id.  `txLess a b = true` means `a` pops
before `b`. -/
def txLess (a b : Tx) : Bool :=
  if a.fee ≠ b.fee then decide (a.fee > b.fee)
  else if a.timestamp ≠ b.timestamp then decide (a.timestamp < b.timestamp)
  else decide (a.id < b.id)

/-- The priority key realising `txLess` as a lexicographic order:
fee descending (order dual), then timestamp ascending, then id ascending. -/
def prio (t : Tx) : (Natᵒᵈ) ×ₗ (Int ×ₗ String) :=
  toLex (OrderDual.toDual t.fee, toLex (t.timestamp, t.id))

theorem txLess_iff (a b : Tx) : txLess a b = true ↔ prio a < prio b := by
  have hlt : prio a < prio b ↔
      (b.fee < a.fee ∨ a.fee = b.fee ∧
        (a.timestamp < b.timestamp ∨ a.timestamp = b.timestamp ∧ a.id < b.id)) := by
    unfold prio
    rw [Prod.Lex.lt_iff]
    rw [show (toLex (a.timestamp, a.id) < toLex (b.timestamp, b.id)) ↔
        (a.timestamp < b.timestamp ∨ a.timestamp = b.timestamp ∧ a.id < b.id) from
      Prod.Lex.lt_iff _ _]
    simp [OrderDual.toDual_lt_toDual, OrderDual.toDual_inj]
  rw [hlt]
  unfold txLess
  split_ifs with hf ht
  · simp only [decide_eq_true_eq]
    exact ⟨fun h => Or.inl h,
      fun h => h.elim (fun h => h) (fun he => absurd he.1 hf)⟩
  · have hfe : a.fee = b.fee := not_ne_iff.mp hf
    simp only [decide_eq_true_eq]
    constructor
    · intro h; exact Or.inr ⟨hfe, Or.inl h⟩
    · intro h
      rcases h with h | ⟨_, h | ⟨hte, _⟩⟩
      · omega
      · exact h
      · exact absurd hte ht
  · have hfe : a.fee = b.fee := not_ne_iff.mp hf
    have hte : a.timestamp = b.timestamp := not_ne_iff.mp ht
    simp only [decide_eq_true_eq]
    constructor
    · intro h; exact Or.inr ⟨hfe, Or.inr ⟨hte, h⟩⟩
    · intro h
      rcases h with h | ⟨_, h | ⟨_, h⟩⟩
      · omega
      · exact absurd h (by omega)
      · exact h

theorem txLess_iff_false (a b : Tx) : txLess a b = false ↔ ¬ prio a < prio b := by
  rw [← txLess_iff]
  cases h : txLess a b <;> simp

/-- The pop-precedence preorder: `a` does not pop strictly after `b`. -/
def txLe (a b : Tx) : Prop := txLess b a = false

instance : DecidableRel txLe := fun a b => by unfold txLe; infer_instance

theorem txLe_iff (a b : Tx) : txLe a b ↔ prio a ≤ prio b := by
  unfold txLe
  rw [txLess_iff_false, not_lt]

instance : IsTotal Tx txLe :=
  ⟨fun a b => by rw [txLe_iff, txLe_iff]; exact le_total _ _⟩

instance : IsTrans Tx txLe :=
  ⟨fun a b c hab hbc => by
    rw [txLe_iff] at *; exact le_trans hab hbc⟩

/-- Strictness on distinct ids: two transactions with different ids are
strictly comparable, so `txLe` plus distinct ids gives strict `txLess`. -/
theorem txLess_of_txLe_of_ne {a b : Tx} (h : txLe a b) (hid : a.id ≠ b.id) :
    txLess a b = true := by
  rw [txLess_iff]
  rw [txLe_iff] at h
  refine lt_of_le_of_ne h (fun he => hid ?_)
  have : (OrderDual.toDual a.fee, toLex (a.timestamp, a.id)) =
      (OrderDual.toDual b.fee, toLex (b.timestamp, b.id)) := by
    simpa [prio] using he
  have h2 := congrArg Prod.snd this
  simpa using congrArg Prod.snd (show ((a.timestamp, a.id) : Int × String) = (b.timestamp, b.id) by
    simpa using h2)

/-- `heap.Push`, modelled through the `container/heap` contract: insert the
transaction at its pop position in the `Less`-sorted queue. -/
def heapPush (t : Tx) (h : List Tx) : List Tx := List.orderedInsert txLe t h

/-- The two data structures of `mempool` (mempool.go): the indexed heap and
the `id → record` table.  Both hold the same transactions in any state the
implementation can reach. -/
structure Mempool where
  heap : List Tx
  table : List Tx
deriving DecidableEq, Repr

/-- `NewMempool` from mempool.go: empty heap, empty table. -/
def NewMempool : Mempool := ⟨[], []⟩

/-- `ErrTxExists` / `ErrTxNotFound` from mempool.go. -/
inductive MpErr
  | txExists
  | txNotFound
deriving DecidableEq, Repr

/-- `(*mempool).Add`: duplicate id check against the table, then push into
heap and table.  Returns the error (if any) together with the state after
the call. -/
def Mempool.Add (m : Mempool) (tx : Tx) : Except MpErr Unit × Mempool :=
  if m.table.any (fun t => t.id == tx.id) then (.error .txExists, m)
  else (.ok (), { heap := heapPush tx m.heap, table := tx :: m.table })

/-- `(*mempool).Update`: strict — absent id is `ErrTxNotFound`; otherwise the
record's transaction pointer is replaced and `heap.Fix` restores the order
(modelled as removing the old entry and inserting the replacement at its pop
position). -/
def Mempool.Update (m : Mempool) (tx : Tx) : Except MpErr Unit × Mempool :=
  if m.table.any (fun t => t.id == tx.id) then
    (.ok (), { heap := heapPush tx (m.heap.filter (fun t => decide (t.id ≠ tx.id))),
               table := tx :: m.table.filter (fun t => decide (t.id ≠ tx.id)) })
  else (.error .txNotFound, m)

/-- `(*mempool).Remove`: strict — absent id is `ErrTxNotFound`; otherwise the
record leaves both heap and table. -/
def Mempool.Remove (m : Mempool) (i : String) : Except MpErr Unit × Mempool :=
  if m.table.any (fun t => t.id == i) then
    (.ok (), { heap := m.heap.filter (fun t => decide (t.id ≠ i)),
               table := m.table.filter (fun t => decide (t.id ≠ i)) })
  else (.error .txNotFound, m)

/-- `BlockConstraints` from types.go (`GasLimit uint64`, `MaxTx int`,
`MinFee uint64`). -/
structure BlockConstraints where
  gasLimit : Nat
  maxTx : Int
  minFee : Nat
deriving DecidableEq, Repr

/-- `BlockSelectionResult` from types.go. -/
structure BlockSelectionResult where
  transactions : List Tx
  gasUsed : Nat
deriving DecidableEq, Repr

/-- All mutable data of the `SelectTransactions` loop at exit: the accepted
list, the running (wrapping) gas counter, the skipped buffer, the table, and
the unconsumed remainder of the heap. -/
structure SelectLoopOut where
  acc : List Tx
  gasUsed : Nat
  skipped : List Tx
  table : List Tx
  heapRest : List Tx
deriving DecidableEq, Repr

/-- The `for` loop of `SelectTransactions` (mempool.go lines 182–203):
while fewer than `MaxTx` transactions are accepted and the heap is nonempty,
pop the top and (1) purge it from the table if its fee is below `MinFee`,
(2) move it to `skipped` if a positive `GasLimit` would be exceeded, or
(3) accept it, accumulate its gas with `uint64` wrapping, and drop its id
from the table. -/
def selectLoop (c : BlockConstraints) (acc : List Tx) (gasUsed : Nat)
    (skipped : List Tx) (table : List Tx) : List Tx → SelectLoopOut
  | [] => ⟨acc, gasUsed, skipped, table, []⟩
  | tx :: rest =>
    if (acc.length : Int) < c.maxTx then
      if tx.fee < c.minFee then
        selectLoop c acc gasUsed skipped
          (table.filter (fun t => decide (t.id ≠ tx.id))) rest
      else if 0 < c.gasLimit ∧ c.gasLimit < addU64 gasUsed tx.gas then
        selectLoop c acc gasUsed (skipped ++ [tx]) table rest
      else
        selectLoop c (acc ++ [tx]) (addU64 gasUsed tx.gas) skipped
          (table.filter (fun t => decide (t.id ≠ tx.id))) rest
    else ⟨acc, gasUsed, skipped, table, tx :: rest⟩

/-- `(*mempool).SelectTransactions`: early return on `MaxTx ≤ 0` or empty
heap; otherwise run the loop and push every skipped record back into the
heap. -/
def Mempool.SelectTransactions (m : Mempool) (c : BlockConstraints) :
    BlockSelectionResult × Mempool :=
  if c.maxTx ≤ 0 ∨ m.heap = [] then (⟨[], 0⟩, m)
  else
    let o := selectLoop c [] 0 [] m.table m.heap
    (⟨o.acc, o.gasUsed⟩,
     { heap := o.skipped.foldl (fun h t => heapPush t h) o.heapRest,
       table := o.table })

/-- `(*mempool).List`: all transactions currently in the table (Go map
iteration order is unspecified; the claims only use membership).  Named
`ListTxs` because `List` would shadow Lean's list type inside the
`Mempool` namespace. -/
def Mempool.ListTxs (m : Mempool) : List Tx := m.table

/-- The transactions popped from the heap during a `SelectTransactions`
call: the consumed prefix of the (pop-ordered) heap. -/
def Mempool.selectPopped (m : Mempool) (c : BlockConstraints) : List Tx :=
  if c.maxTx ≤ 0 ∨ m.heap = [] then []
  else m.heap.take (m.heap.length - (selectLoop c [] 0 [] m.table m.heap).heapRest.length)

/-- The mempool states reachable through the public API, starting from
`NewMempool`.  Failing calls return the unchanged state, so every call is
covered. -/
inductive Reach : Mempool → Prop
  | empty : Reach NewMempool
  | add (tx : Tx) {m : Mempool} : Reach m → Reach (m.Add tx).2
  | update (tx : Tx) {m : Mempool} : Reach m → Reach (m.Update tx).2
  | remove (i : String) {m : Mempool} : Reach m → Reach (m.Remove i).2
  | select (c : BlockConstraints) {m : Mempool} : Reach m → Reach (m.SelectTransactions c).2

/-! ### Helper lemmas about the heap model -/

theorem mem_heapPush {x t : Tx} {h : List Tx} :
    x ∈ heapPush t h ↔ x = t ∨ x ∈ h := by
  simp [heapPush, List.mem_orderedInsert txLe]

theorem perm_heapPush (t : Tx) (h : List Tx) : List.Perm (heapPush t h) (t :: h) :=
  List.perm_orderedInsert txLe t h

theorem sorted_heapPush {t : Tx} {h : List Tx} (hs : h.Sorted txLe) :
    (heapPush t h).Sorted txLe :=
  List.Sorted.orderedInsert t h hs

theorem mem_foldl_heapPush {x : Tx} (l : List Tx) (acc : List Tx) :
    x ∈ l.foldl (fun h t => heapPush t h) acc ↔ x ∈ l ∨ x ∈ acc := by
  induction l generalizing acc with
  | nil => simp
  | cons t rest ih =>
    simp only [List.foldl_cons, ih, mem_heapPush, List.mem_cons]
    tauto

theorem sorted_foldl_heapPush (l : List Tx) {acc : List Tx} (hs : acc.Sorted txLe) :
    (l.foldl (fun h t => heapPush t h) acc).Sorted txLe := by
  induction l generalizing acc with
  | nil => exact hs
  | cons t rest ih => exact ih (sorted_heapPush hs)

theorem perm_foldl_heapPush (l : List Tx) (acc : List Tx) :
    List.Perm (l.foldl (fun h t => heapPush t h) acc) (l ++ acc) := by
  induction l generalizing acc with
  | nil => simp
  | cons t rest ih =>
    have step1 := ih (heapPush t acc)
    have step2 : List.Perm (rest ++ heapPush t acc) (rest ++ t :: acc) :=
      List.Perm.append_left rest (perm_heapPush t acc)
    have step3 : List.Perm (rest ++ t :: acc) (t :: (rest ++ acc)) := List.perm_middle
    simpa using (step1.trans step2).trans step3

/-! ### Helper lemmas about the selection loop -/

/-- Total gas of a transaction list. -/
def sumGas (l : List Tx) : Nat := (l.map (fun t => t.gas)).sum

theorem selectLoop_gasLimit (c : BlockConstraints) :
    ∀ (h acc : List Tx) (g : Nat) (s t : List Tx), 0 < c.gasLimit →
      g ≤ c.gasLimit → (selectLoop c acc g s t h).gasUsed ≤ c.gasLimit
  | [], acc, g, s, t, _, hg => by simpa [selectLoop] using hg
  | tx :: rest, acc, g, s, t, hpos, hg => by
    simp only [selectLoop]
    split_ifs with h1 h2 h3
    · exact selectLoop_gasLimit c rest acc g s _ hpos hg
    · exact selectLoop_gasLimit c rest acc g _ t hpos hg
    · have : addU64 g tx.gas ≤ c.gasLimit := by
        rcases Nat.lt_or_ge c.gasLimit (addU64 g tx.gas) with hlt | hle
        · exact absurd ⟨hpos, hlt⟩ h3
        · exact hle
      exact selectLoop_gasLimit c rest _ _ s _ hpos this
    · simpa using hg

theorem selectLoop_gasSum (c : BlockConstraints) :
    ∀ (h acc : List Tx) (g : Nat) (s t : List Tx), g = sumGas acc % U64 →
      (selectLoop c acc g s t h).gasUsed = sumGas (selectLoop c acc g s t h).acc % U64
  | [], acc, g, s, t, hg => by simpa [selectLoop] using hg
  | tx :: rest, acc, g, s, t, hg => by
    simp only [selectLoop]
    split_ifs with h1 h2 h3
    · exact selectLoop_gasSum c rest acc g s _ hg
    · exact selectLoop_gasSum c rest acc g _ t hg
    · refine selectLoop_gasSum c rest _ _ s _ ?_
      subst hg
      simp [addU64, sumGas, Nat.mod_add_mod]
    · simpa [selectLoop] using hg

theorem selectLoop_length (c : BlockConstraints) :
    ∀ (h acc : List Tx) (g : Nat) (s t : List Tx),
      (acc.length : Int) ≤ c.maxTx →
      ((selectLoop c acc g s t h).acc.length : Int) ≤ c.maxTx
  | [], acc, g, s, t, ha => by simpa [selectLoop] using ha
  | tx :: rest, acc, g, s, t, ha => by
    simp only [selectLoop]
    split_ifs with h1 h2 h3
    · exact selectLoop_length c rest acc g s _ ha
    · exact selectLoop_length c rest acc g _ t ha
    · refine selectLoop_length c rest _ _ s _ ?_
      simp only [List.length_append, List.length_cons, List.length_nil]
      push_cast
      omega
    · simpa using ha

theorem selectLoop_acc_decomp (c : BlockConstraints) :
    ∀ (h acc : List Tx) (g : Nat) (s t : List Tx),
      ∃ d, (selectLoop c acc g s t h).acc = acc ++ d ∧ d.Sublist h
  | [], acc, g, s, t => ⟨[], by simp [selectLoop]⟩
  | tx :: rest, acc, g, s, t => by
    simp only [selectLoop]
    split_ifs with h1 h2 h3
    · obtain ⟨d, hd, hsub⟩ := selectLoop_acc_decomp c rest acc g s
        (t.filter (fun t => decide (t.id ≠ tx.id)))
      exact ⟨d, hd, hsub.cons tx⟩
    · obtain ⟨d, hd, hsub⟩ := selectLoop_acc_decomp c rest acc g (s ++ [tx]) t
      exact ⟨d, hd, hsub.cons tx⟩
    · obtain ⟨d, hd, hsub⟩ := selectLoop_acc_decomp c rest (acc ++ [tx])
        (addU64 g tx.gas) s (t.filter (fun t => decide (t.id ≠ tx.id)))
      exact ⟨tx :: d, by simpa using hd, hsub.cons₂ tx⟩
    · exact ⟨[], by simp⟩

theorem selectLoop_skipped_decomp (c : BlockConstraints) :
    ∀ (h acc : List Tx) (g : Nat) (s t : List Tx),
      ∃ e, (selectLoop c acc g s t h).skipped = s ++ e ∧
        (e ++ (selectLoop c acc g s t h).heapRest).Sublist h
  | [], acc, g, s, t => ⟨[], by simp [selectLoop]⟩
  | tx :: rest, acc, g, s, t => by
    simp only [selectLoop]
    split_ifs with h1 h2 h3
    · obtain ⟨e, he, hsub⟩ := selectLoop_skipped_decomp c rest acc g s
        (t.filter (fun t => decide (t.id ≠ tx.id)))
      exact ⟨e, he, hsub.cons tx⟩
    · obtain ⟨e, he, hsub⟩ := selectLoop_skipped_decomp c rest acc g (s ++ [tx]) t
      exact ⟨tx :: e, by simpa using he, by simpa using hsub.cons₂ tx⟩
    · obtain ⟨e, he, hsub⟩ := selectLoop_skipped_decomp c rest (acc ++ [tx])
        (addU64 g tx.gas) s (t.filter (fun t => decide (t.id ≠ tx.id)))
      exact ⟨e, he, hsub.cons tx⟩
    · exact ⟨[], by simp [selectLoop]⟩

theorem selectLoop_heap_decomp (c : BlockConstraints) :
    ∀ (h acc : List Tx) (g : Nat) (s t : List Tx),
      ∃ p, h = p ++ (selectLoop c acc g s t h).heapRest
  | [], acc, g, s, t => ⟨[], by simp [selectLoop]⟩
  | tx :: rest, acc, g, s, t => by
    simp only [selectLoop]
    split_ifs with h1 h2 h3
    · obtain ⟨p, hp⟩ := selectLoop_heap_decomp c rest acc g s
        (t.filter (fun t => decide (t.id ≠ tx.id)))
      exact ⟨tx :: p, by simpa using hp⟩
    · obtain ⟨p, hp⟩ := selectLoop_heap_decomp c rest acc g (s ++ [tx]) t
      exact ⟨tx :: p, by simpa using hp⟩
    · obtain ⟨p, hp⟩ := selectLoop_heap_decomp c rest (acc ++ [tx])
        (addU64 g tx.gas) s (t.filter (fun t => decide (t.id ≠ tx.id)))
      exact ⟨tx :: p, by simpa using hp⟩
    · exact ⟨[], rfl⟩

theorem selectLoop_table_sublist (c : BlockConstraints) :
    ∀ (h acc : List Tx) (g : Nat) (s t : List Tx),
      (selectLoop c acc g s t h).table.Sublist t
  | [], acc, g, s, t => by simp [selectLoop]
  | tx :: rest, acc, g, s, t => by
    simp only [selectLoop]
    split_ifs with h1 h2 h3
    · exact (selectLoop_table_sublist c rest acc g s _).trans (List.filter_sublist t)
    · exact selectLoop_table_sublist c rest acc g _ t
    · exact (selectLoop_table_sublist c rest _ _ s _).trans (List.filter_sublist t)
    · simp

theorem selectLoop_table_noId (c : BlockConstraints) :
    ∀ (h acc : List Tx) (g : Nat) (s t : List Tx) (i : String),
      (∀ y ∈ t, y.id ≠ i) →
      ∀ y ∈ (selectLoop c acc g s t h).table, y.id ≠ i :=
  fun h acc g s t _ hi y hy =>
    hi y ((selectLoop_table_sublist c h acc g s t).mem hy)

theorem selectLoop_table_keep (c : BlockConstraints) :
    ∀ (h acc : List Tx) (g : Nat) (s t : List Tx) (y : Tx),
      y ∈ t → (∀ z ∈ h, z.id ≠ y.id) →
      y ∈ (selectLoop c acc g s t h).table
  | [], acc, g, s, t, y, hy, _ => by simpa [selectLoop] using hy
  | tx :: rest, acc, g, s, t, y, hy, hz => by
    have hne : tx.id ≠ y.id := hz tx (by simp)
    have hz' : ∀ z ∈ rest, z.id ≠ y.id := fun z hzr => hz z (by simp [hzr])
    simp only [selectLoop]
    split_ifs with h1 h2 h3
    · refine selectLoop_table_keep c rest acc g s _ y ?_ hz'
      simp only [List.mem_filter, decide_eq_true_eq]
      exact ⟨hy, fun he => hne he.symm⟩
    · exact selectLoop_table_keep c rest acc g _ t y hy hz'
    · refine selectLoop_table_keep c rest _ _ s _ y ?_ hz'
      simp only [List.mem_filter, decide_eq_true_eq]
      exact ⟨hy, fun he => hne he.symm⟩
    · simpa using hy

theorem head_id_not_mem {tx : Tx} {rest : List Tx}
    (hnd : ((tx :: rest).map (fun t => t.id)).Nodup) : ∀ y ∈ rest, y.id ≠ tx.id := by
  rw [List.map_cons, List.nodup_cons] at hnd
  intro y hy he
  exact hnd.1 (List.mem_map.mpr ⟨y, hy, he⟩)

theorem tail_ids_nodup {tx : Tx} {rest : List Tx}
    (hnd : ((tx :: rest).map (fun t => t.id)).Nodup) :
    (rest.map (fun t => t.id)).Nodup := by
  rw [List.map_cons, List.nodup_cons] at hnd
  exact hnd.2

/-- Newly accepted transactions all meet the fee floor. -/
theorem selectLoop_minFee (c : BlockConstraints) :
    ∀ (h acc : List Tx) (g : Nat) (s t : List Tx) (y : Tx),
      y ∈ (selectLoop c acc g s t h).acc → y ∉ acc → ¬ y.fee < c.minFee
  | [], acc, g, s, t, y, hy, hacc => by
    simp only [selectLoop] at hy
    exact absurd hy hacc
  | tx :: rest, acc, g, s, t, y, hy, hacc => by
    simp only [selectLoop] at hy
    split_ifs at hy with h1 h2 h3
    · exact selectLoop_minFee c rest acc g s _ y hy hacc
    · exact selectLoop_minFee c rest acc g _ t y hy hacc
    · by_cases hy2 : y ∈ acc ++ [tx]
      · have : y = tx := by
          rcases List.mem_append.mp hy2 with h | h
          · exact absurd h hacc
          · simpa using h
        subst this
        exact h2
      · exact selectLoop_minFee c rest _ _ s _ y hy hy2
    · exact absurd hy hacc

/-- Invariant (I2) through the loop: the table holds exactly the unpopped
heap remainder together with the skipped transactions. -/
theorem selectLoop_table_mem (c : BlockConstraints) :
    ∀ (h acc : List Tx) (g : Nat) (s t : List Tx),
      ((h ++ s).map (fun x => x.id)).Nodup →
      (∀ y : Tx, y ∈ t ↔ y ∈ h ∨ y ∈ s) →
      ∀ y : Tx, y ∈ (selectLoop c acc g s t h).table ↔
        y ∈ (selectLoop c acc g s t h).heapRest ∨ y ∈ (selectLoop c acc g s t h).skipped
  | [], acc, g, s, t, _, ht, y => by
    simpa [selectLoop] using ht y
  | tx :: rest, acc, g, s, t, hnd, ht, y => by
    have hnd2 : (tx.id :: (rest ++ s).map (fun x => x.id)).Nodup := by
      rw [show (tx :: rest) ++ s = tx :: (rest ++ s) from rfl, List.map_cons] at hnd
      exact hnd
    have hids : ∀ z, z ∈ rest ∨ z ∈ s → z.id ≠ tx.id := by
      intro z hz he
      exact (List.nodup_cons.mp hnd2).1
        (List.mem_map.mpr ⟨z, List.mem_append.mpr hz, he⟩)
    have hnd' : ((rest ++ s).map (fun x => x.id)).Nodup :=
      (List.nodup_cons.mp hnd2).2
    simp only [selectLoop]
    split_ifs with h1 h2 h3
    · refine selectLoop_table_mem c rest acc g s _ hnd' ?_ y
      intro z
      simp only [List.mem_filter, decide_eq_true_eq, ht z, List.mem_cons]
      constructor
      · rintro ⟨(rfl | h) | h, hne⟩
        · exact absurd rfl hne
        · exact Or.inl h
        · exact Or.inr h
      · intro h
        exact ⟨by tauto, hids z h⟩
    · refine selectLoop_table_mem c rest acc g (s ++ [tx]) t ?_ ?_ y
      · have hperm : List.Perm (((tx :: rest) ++ s).map (fun x => x.id))
            ((rest ++ (s ++ [tx])).map (fun x => x.id)) := by
          refine List.Perm.map _ ?_
          have h2p : List.Perm ((rest ++ s) ++ [tx]) (tx :: (rest ++ s)) :=
            List.perm_append_singleton tx (rest ++ s)
          have h3p : List.Perm (tx :: (rest ++ s)) (rest ++ (s ++ [tx])) := by
            simpa [List.append_assoc] using h2p.symm
          simpa using h3p
        exact hperm.nodup hnd
      · intro z
        rw [ht z]
        simp only [List.mem_cons, List.mem_append, List.mem_singleton]
        tauto
    · refine selectLoop_table_mem c rest (acc ++ [tx]) (addU64 g tx.gas) s _ hnd' ?_ y
      intro z
      simp only [List.mem_filter, decide_eq_true_eq, ht z, List.mem_cons]
      constructor
      · rintro ⟨(rfl | h) | h, hne⟩
        · exact absurd rfl hne
        · exact Or.inl h
        · exact Or.inr h
      · intro h
        exact ⟨by tauto, hids z h⟩
    · simpa using ht y

/-- The fate of a transaction popped during selection (`x ∈ h` but not in
the unconsumed remainder): if its fee is below the floor it is purged — in
neither the accepted list, the skipped buffer, nor the table; otherwise it
is either accepted (and leaves the table) or skipped (and stays in the
table). -/
theorem selectLoop_fate (c : BlockConstraints) :
    ∀ (h acc : List Tx) (g : Nat) (s t : List Tx) (x : Tx),
      (h.map (fun z => z.id)).Nodup → x ∈ h →
      x ∉ (selectLoop c acc g s t h).heapRest → x ∉ acc → x ∉ s →
      ((x.fee < c.minFee →
          x ∉ (selectLoop c acc g s t h).acc ∧ x ∉ (selectLoop c acc g s t h).skipped ∧
          ∀ y ∈ (selectLoop c acc g s t h).table, y.id ≠ x.id) ∧
       (¬ x.fee < c.minFee →
          (x ∈ (selectLoop c acc g s t h).acc ∨ x ∈ (selectLoop c acc g s t h).skipped) ∧
          (x ∈ (selectLoop c acc g s t h).acc →
            ∀ y ∈ (selectLoop c acc g s t h).table, y.id ≠ x.id) ∧
          (x ∈ (selectLoop c acc g s t h).skipped → x ∈ t →
            x ∈ (selectLoop c acc g s t h).table)))
  | [], acc, g, s, t, x, _, hx, _, _, _ => absurd hx (by simp)
  | tx :: rest, acc, g, s, t, x, hnd, hx, hrest, hacc, hs => by
    have hhead := head_id_not_mem hnd
    have hnd' : (rest.map (fun z => z.id)).Nodup := tail_ids_nodup hnd
    have htx_rest : tx ∉ rest := fun hmem => hhead tx hmem rfl
    simp only [selectLoop] at hrest ⊢
    split_ifs at hrest ⊢ with h1 h2 h3
    · -- purge branch
      rcases List.mem_cons.mp hx with rfl | hxr
      · refine ⟨fun _ => ?_, fun hnf => absurd h2 hnf⟩
        obtain ⟨d, hd, hdsub⟩ := selectLoop_acc_decomp c rest acc g s
          (t.filter (fun z => decide (z.id ≠ x.id)))
        obtain ⟨e, he, hesub⟩ := selectLoop_skipped_decomp c rest acc g s
          (t.filter (fun z => decide (z.id ≠ x.id)))
        refine ⟨?_, ?_, ?_⟩
        · rw [hd]
          intro hmem
          rcases List.mem_append.mp hmem with h | h
          · exact hacc h
          · exact htx_rest (hdsub.mem h)
        · rw [he]
          intro hmem
          rcases List.mem_append.mp hmem with h | h
          · exact hs h
          · exact htx_rest ((hesub.mem (List.mem_append.mpr (Or.inl h))))
        · refine selectLoop_table_noId c rest acc g s _ x.id ?_
          intro y hy
          simpa using (List.mem_filter.mp hy).2
      · have hxt : x.id ≠ tx.id := hhead x hxr
        have IH := selectLoop_fate c rest acc g s
          (t.filter (fun z => decide (z.id ≠ tx.id))) x hnd' hxr hrest hacc hs
        refine ⟨fun hf => (IH.1 hf), fun hnf => ?_⟩
        obtain ⟨hor, hin, hskip⟩ := IH.2 hnf
        refine ⟨hor, hin, fun hsk hxt' => hskip hsk ?_⟩
        simp only [List.mem_filter, decide_eq_true_eq]
        exact ⟨hxt', hxt⟩
    · -- skip branch
      rcases List.mem_cons.mp hx with rfl | hxr
      · refine ⟨fun hf => absurd hf h2, fun _ => ?_⟩
        obtain ⟨d, hd, hdsub⟩ := selectLoop_acc_decomp c rest acc g (s ++ [x]) t
        obtain ⟨e, he, hesub⟩ := selectLoop_skipped_decomp c rest acc g (s ++ [x]) t
        have hnacc : x ∉ (selectLoop c acc g (s ++ [x]) t rest).acc := by
          rw [hd]
          intro hmem
          rcases List.mem_append.mp hmem with h | h
          · exact hacc h
          · exact htx_rest (hdsub.mem h)
        refine ⟨Or.inr ?_, fun h => absurd h hnacc, fun _ hxt => ?_⟩
        · rw [he]
          exact List.mem_append.mpr (Or.inl (by simp))
        · exact selectLoop_table_keep c rest acc g (s ++ [x]) t x hxt
            (fun z hz he => hhead z hz (by simpa using he))
      · have hxt : x.id ≠ tx.id := hhead x hxr
        have hxtx : x ≠ tx := fun he => hxt (he ▸ rfl)
        have hs' : x ∉ s ++ [tx] := by
          intro hmem
          rcases List.mem_append.mp hmem with h | h
          · exact hs h
          · exact hxtx (by simpa using h)
        have IH := selectLoop_fate c rest acc g (s ++ [tx]) t x hnd' hxr hrest hacc hs'
        exact IH
    · -- accept branch
      rcases List.mem_cons.mp hx with rfl | hxr
      · refine ⟨fun hf => absurd hf h2, fun _ => ?_⟩
        obtain ⟨d, hd, hdsub⟩ := selectLoop_acc_decomp c rest (acc ++ [x])
          (addU64 g x.gas) s (t.filter (fun z => decide (z.id ≠ x.id)))
        obtain ⟨e, he, hesub⟩ := selectLoop_skipped_decomp c rest (acc ++ [x])
          (addU64 g x.gas) s (t.filter (fun z => decide (z.id ≠ x.id)))
        have hnskip : x ∉ (selectLoop c (acc ++ [x]) (addU64 g x.gas) s
            (t.filter (fun z => decide (z.id ≠ x.id))) rest).skipped := by
          rw [he]
          intro hmem
          rcases List.mem_append.mp hmem with h | h
          · exact hs h
          · exact htx_rest ((hesub.mem (List.mem_append.mpr (Or.inl h))))
        refine ⟨Or.inl ?_, fun _ => ?_, fun h => absurd h hnskip⟩
        · rw [hd]
          exact List.mem_append.mpr (Or.inl (by simp))
        · refine selectLoop_table_noId c rest _ _ s _ x.id ?_
          intro y hy
          simpa using (List.mem_filter.mp hy).2
      · have hxt : x.id ≠ tx.id := hhead x hxr
        have hxtx : x ≠ tx := fun he => hxt (he ▸ rfl)
        have hacc' : x ∉ acc ++ [tx] := by
          intro hmem
          rcases List.mem_append.mp hmem with h | h
          · exact hacc h
          · exact hxtx (by simpa using h)
        have IH := selectLoop_fate c rest (acc ++ [tx]) (addU64 g tx.gas) s
          (t.filter (fun z => decide (z.id ≠ tx.id))) x hnd' hxr hrest hacc' hs
        refine ⟨fun hf => (IH.1 hf), fun hnf => ?_⟩
        obtain ⟨hor, hin, hskip⟩ := IH.2 hnf
        refine ⟨hor, hin, fun hsk hxt' => hskip hsk ?_⟩
        simp only [List.mem_filter, decide_eq_true_eq]
        exact ⟨hxt', hxt⟩
    · -- loop exit with transactions remaining
      exact absurd hx hrest

/-! ### Invariants (I1)–(I3) and their preservation -/

/-- Well-formedness of a mempool state: the heap is in pop order, ids are
unique in heap and table, and heap and table hold the same transactions
(invariants I1, I2, I3 of the specification). -/
def WF (m : Mempool) : Prop :=
  m.heap.Sorted txLe ∧ (m.heap.map (fun t => t.id)).Nodup ∧
  (m.table.map (fun t => t.id)).Nodup ∧ (∀ x : Tx, x ∈ m.heap ↔ x ∈ m.table)

theorem wf_NewMempool : WF NewMempool := by
  refine ⟨?_, ?_, ?_, ?_⟩ <;> simp [NewMempool, Mempool.heap, Mempool.table]

theorem not_any_id {l : List Tx} {i : String}
    (h : ¬ l.any (fun t => t.id == i) = true) : ∀ y ∈ l, y.id ≠ i := by
  intro y hy he
  exact h (List.any_eq_true.mpr ⟨y, hy, by simp [he]⟩)

theorem wf_Add {m : Mempool} (hw : WF m) (tx : Tx) : WF (m.Add tx).2 := by
  obtain ⟨hsort, hhn, htn, hcor⟩ := hw
  unfold Mempool.Add
  split_ifs with hdup
  · exact ⟨hsort, hhn, htn, hcor⟩
  · have hfresh : ∀ y ∈ m.table, y.id ≠ tx.id := not_any_id hdup
    have hfreshh : ∀ y ∈ m.heap, y.id ≠ tx.id := fun y hy => hfresh y ((hcor y).mp hy)
    have hnotmem : tx.id ∉ m.heap.map (fun t => t.id) := by
      intro hmem
      obtain ⟨y, hy, he⟩ := List.mem_map.mp hmem
      exact hfreshh y hy he
    refine ⟨sorted_heapPush hsort, ?_, ?_, ?_⟩
    · have hperm : List.Perm ((tx :: m.heap).map (fun t => t.id))
          ((heapPush tx m.heap).map (fun t => t.id)) :=
        List.Perm.map _ (perm_heapPush tx m.heap).symm
      exact hperm.nodup (by
        rw [List.map_cons, List.nodup_cons]
        exact ⟨hnotmem, hhn⟩)
    · rw [List.map_cons, List.nodup_cons]
      refine ⟨?_, htn⟩
      intro hmem
      obtain ⟨y, hy, he⟩ := List.mem_map.mp hmem
      exact hfresh y hy he
    · intro x
      rw [mem_heapPush]
      simp only [List.mem_cons, hcor x]

theorem wf_Update {m : Mempool} (hw : WF m) (tx : Tx) : WF (m.Update tx).2 := by
  obtain ⟨hsort, hhn, htn, hcor⟩ := hw
  unfold Mempool.Update
  split_ifs with hex
  · have hfsub : (m.heap.filter (fun t => decide (t.id ≠ tx.id))).Sublist m.heap :=
      List.filter_sublist m.heap
    have hfsort : (m.heap.filter (fun t => decide (t.id ≠ tx.id))).Sorted txLe :=
      List.Pairwise.sublist hfsub hsort
    have hfid : ∀ y ∈ m.heap.filter (fun t => decide (t.id ≠ tx.id)), y.id ≠ tx.id := by
      intro y hy
      simpa using (List.mem_filter.mp hy).2
    have hfn : ((m.heap.filter (fun t => decide (t.id ≠ tx.id))).map
        (fun t => t.id)).Nodup :=
      List.Nodup.sublist (hfsub.map _) hhn
    refine ⟨sorted_heapPush hfsort, ?_, ?_, ?_⟩
    · have hperm : List.Perm
          ((tx :: m.heap.filter (fun t => decide (t.id ≠ tx.id))).map (fun t => t.id))
          ((heapPush tx (m.heap.filter (fun t => decide (t.id ≠ tx.id)))).map
            (fun t => t.id)) :=
        List.Perm.map _ (perm_heapPush tx _).symm
      refine hperm.nodup ?_
      rw [List.map_cons, List.nodup_cons]
      refine ⟨?_, hfn⟩
      intro hmem
      obtain ⟨y, hy, he⟩ := List.mem_map.mp hmem
      exact hfid y hy he
    · rw [List.map_cons, List.nodup_cons]
      refine ⟨?_, List.Nodup.sublist ((List.filter_sublist m.table).map _) htn⟩
      intro hmem
      obtain ⟨y, hy, he⟩ := List.mem_map.mp hmem
      exact (by simpa using (List.mem_filter.mp hy).2 : y.id ≠ tx.id) he
    · intro x
      rw [mem_heapPush]
      simp only [List.mem_cons, List.mem_filter, decide_eq_true_eq, hcor x]
  · exact ⟨hsort, hhn, htn, hcor⟩

theorem wf_Remove {m : Mempool} (hw : WF m) (i : String) : WF (m.Remove i).2 := by
  obtain ⟨hsort, hhn, htn, hcor⟩ := hw
  unfold Mempool.Remove
  split_ifs with hex
  · refine ⟨List.Pairwise.sublist (List.filter_sublist m.heap) hsort,
      List.Nodup.sublist ((List.filter_sublist m.heap).map _) hhn,
      List.Nodup.sublist ((List.filter_sublist m.table).map _) htn, ?_⟩
    intro x
    simp only [List.mem_filter, decide_eq_true_eq, hcor x]
  · exact ⟨hsort, hhn, htn, hcor⟩

theorem wf_Select {m : Mempool} (hw : WF m) (c : BlockConstraints) :
    WF (m.SelectTransactions c).2 := by
  obtain ⟨hsort, hhn, htn, hcor⟩ := hw
  unfold Mempool.SelectTransactions
  split_ifs with hearly
  · exact ⟨hsort, hhn, htn, hcor⟩
  · obtain ⟨p, hp⟩ := selectLoop_heap_decomp c m.heap [] 0 [] m.table
    obtain ⟨e, he, hesub⟩ := selectLoop_skipped_decomp c m.heap [] 0 [] m.table
    have hrsub : (selectLoop c [] 0 [] m.table m.heap).heapRest.Sublist
        (p ++ (selectLoop c [] 0 [] m.table m.heap).heapRest) :=
      List.sublist_append_right p _
    rw [← hp] at hrsub
    have hskiprest :
        ((selectLoop c [] 0 [] m.table m.heap).skipped ++
          (selectLoop c [] 0 [] m.table m.heap).heapRest).Sublist m.heap := by
      rw [he]
      simpa using hesub
    refine ⟨?_, ?_, ?_, ?_⟩
    · exact sorted_foldl_heapPush _ (List.Pairwise.sublist hrsub hsort)
    · have hperm : List.Perm
          ((((selectLoop c [] 0 [] m.table m.heap).skipped ++
            (selectLoop c [] 0 [] m.table m.heap).heapRest)).map (fun t => t.id))
          (((selectLoop c [] 0 [] m.table m.heap).skipped.foldl
            (fun h t => heapPush t h)
            (selectLoop c [] 0 [] m.table m.heap).heapRest).map (fun t => t.id)) :=
        List.Perm.map _ (perm_foldl_heapPush _ _).symm
      exact hperm.nodup (List.Nodup.sublist (hskiprest.map _) hhn)
    · exact List.Nodup.sublist
        ((selectLoop_table_sublist c m.heap [] 0 [] m.table).map _) htn
    · intro x
      have hmem := selectLoop_table_mem c m.heap [] 0 [] m.table
        (by simpa using hhn) (by simpa using fun y => (hcor y).symm) x
      rw [mem_foldl_heapPush]
      rw [hmem]
      tauto

/-- Every reachable mempool state is well-formed. -/
theorem Reach.wf {m : Mempool} (h : Reach m) : WF m := by
  induction h with
  | empty => exact wf_NewMempool
  | add tx _ ih => exact wf_Add ih tx
  | update tx _ ih => exact wf_Update ih tx
  | remove i _ ih => exact wf_Remove ih i
  | select c _ ih => exact wf_Select ih c

/-! ### Characterisations of `SelectTransactions` -/

theorem SelectTransactions_eq {m : Mempool} {c : BlockConstraints}
    (h : ¬ (c.maxTx ≤ 0 ∨ m.heap = [])) :
    m.SelectTransactions c =
      (⟨(selectLoop c [] 0 [] m.table m.heap).acc,
        (selectLoop c [] 0 [] m.table m.heap).gasUsed⟩,
       ⟨(selectLoop c [] 0 [] m.table m.heap).skipped.foldl (fun hp t => heapPush t hp)
          (selectLoop c [] 0 [] m.table m.heap).heapRest,
        (selectLoop c [] 0 [] m.table m.heap).table⟩) := by
  unfold Mempool.SelectTransactions
  rw [if_neg h]

theorem mem_selectPopped {m : Mempool} {c : BlockConstraints} {x : Tx}
    (hnd : (m.heap.map (fun t => t.id)).Nodup)
    (hx : x ∈ m.selectPopped c) :
    x ∈ m.heap ∧ x ∉ (selectLoop c [] 0 [] m.table m.heap).heapRest ∧
      ¬ (c.maxTx ≤ 0 ∨ m.heap = []) := by
  unfold Mempool.selectPopped at hx
  split_ifs at hx with hearly
  · exact absurd hx (by simp)
  · obtain ⟨p, hp⟩ := selectLoop_heap_decomp c m.heap [] 0 [] m.table
    set o := selectLoop c [] 0 [] m.table m.heap with ho
    rw [hp] at hx
    rw [show (p ++ o.heapRest).length - o.heapRest.length = p.length by
      simp [List.length_append]] at hx
    rw [List.take_left p o.heapRest] at hx
    have hdisj : ∀ a ∈ p.map (fun t => t.id), a ∉ o.heapRest.map (fun t => t.id) := by
      have hnd' := hnd
      rw [hp, List.map_append] at hnd'
      exact fun a ha hb => List.disjoint_of_nodup_append hnd' ha hb
    refine ⟨by rw [hp]; exact List.mem_append.mpr (Or.inl hx), ?_, hearly⟩
    intro hmem
    exact hdisj x.id (List.mem_map.mpr ⟨x, hx, rfl⟩) (List.mem_map.mpr ⟨x, hmem, rfl⟩)

/-- A transaction popped with a fee below the floor is purged: it is in
neither the selection result, the resulting heap, nor the resulting table. -/
theorem select_purged {m : Mempool} (hw : WF m) {c : BlockConstraints} {x : Tx}
    (hx : x ∈ m.selectPopped c) (hf : x.fee < c.minFee) :
    x ∉ (m.SelectTransactions c).1.transactions ∧
    x ∉ (m.SelectTransactions c).2.heap ∧
    ∀ y ∈ (m.SelectTransactions c).2.table, y.id ≠ x.id := by
  obtain ⟨_, hhn, _, _⟩ := hw
  obtain ⟨hxh, hxrest, hnearly⟩ := mem_selectPopped hhn hx
  have fate := selectLoop_fate c m.heap [] 0 [] m.table x hhn hxh hxrest
    (by simp) (by simp)
  obtain ⟨hnacc, hnskip, htab⟩ := fate.1 hf
  rw [SelectTransactions_eq hnearly]
  refine ⟨hnacc, ?_, htab⟩
  rw [show ((⟨(selectLoop c [] 0 [] m.table m.heap).acc,
        (selectLoop c [] 0 [] m.table m.heap).gasUsed⟩,
       (⟨(selectLoop c [] 0 [] m.table m.heap).skipped.foldl (fun hp t => heapPush t hp)
          (selectLoop c [] 0 [] m.table m.heap).heapRest,
        (selectLoop c [] 0 [] m.table m.heap).table⟩ : Mempool)) :
      BlockSelectionResult × Mempool).2.heap =
      (selectLoop c [] 0 [] m.table m.heap).skipped.foldl (fun hp t => heapPush t hp)
        (selectLoop c [] 0 [] m.table m.heap).heapRest from rfl]
  rw [mem_foldl_heapPush]
  rintro (h | h)
  · exact hnskip h
  · exact hxrest h

/-- A transaction popped with sufficient fee that does not appear in the
selection result was skipped: it stays in both heap and table, unchanged. -/
theorem select_skipped {m : Mempool} (hw : WF m) {c : BlockConstraints} {x : Tx}
    (hx : x ∈ m.selectPopped c) (hnf : ¬ x.fee < c.minFee)
    (hnacc : x ∉ (m.SelectTransactions c).1.transactions) :
    x ∈ (m.SelectTransactions c).2.heap ∧ x ∈ (m.SelectTransactions c).2.table := by
  obtain ⟨_, hhn, _, hcor⟩ := hw
  obtain ⟨hxh, hxrest, hnearly⟩ := mem_selectPopped hhn hx
  have fate := selectLoop_fate c m.heap [] 0 [] m.table x hhn hxh hxrest
    (by simp) (by simp)
  obtain ⟨hor, _, hskip⟩ := fate.2 hnf
  rw [SelectTransactions_eq hnearly] at hnacc ⊢
  have hxacc : x ∉ (selectLoop c [] 0 [] m.table m.heap).acc := hnacc
  have hxskip : x ∈ (selectLoop c [] 0 [] m.table m.heap).skipped := by
    rcases hor with h | h
    · exact absurd h hxacc
    · exact h
  refine ⟨?_, hskip hxskip ((hcor x).mp hxh)⟩
  show x ∈ (selectLoop c [] 0 [] m.table m.heap).skipped.foldl (fun hp t => heapPush t hp)
    (selectLoop c [] 0 [] m.table m.heap).heapRest
  rw [mem_foldl_heapPush]
  exact Or.inl hxskip

/-- Newly accepted transactions leave the table. -/
theorem selectLoop_acc_table (c : BlockConstraints) :
    ∀ (h acc : List Tx) (g : Nat) (s t : List Tx) (x : Tx),
      x ∈ (selectLoop c acc g s t h).acc → x ∉ acc →
      ∀ y ∈ (selectLoop c acc g s t h).table, y.id ≠ x.id
  | [], acc, g, s, t, x, hx, hnacc => absurd (by simpa [selectLoop] using hx) hnacc
  | tx :: rest, acc, g, s, t, x, hx, hnacc => by
    simp only [selectLoop] at hx ⊢
    split_ifs at hx ⊢ with h1 h2 h3
    · exact selectLoop_acc_table c rest acc g s _ x hx hnacc
    · exact selectLoop_acc_table c rest acc g _ t x hx hnacc
    · by_cases hx2 : x ∈ acc ++ [tx]
      · have hxeq : x = tx := by
          rcases List.mem_append.mp hx2 with h | h
          · exact absurd h hnacc
          · simpa using h
        subst hxeq
        refine selectLoop_table_noId c rest _ _ s _ x.id ?_
        intro y hy
        simpa using (List.mem_filter.mp hy).2
      · exact selectLoop_acc_table c rest _ _ s _ x hx hx2
    · exact absurd hx hnacc

/-- After selection, the id of any returned transaction is gone from the
table. -/
theorem select_accepted_gone {m : Mempool} {c : BlockConstraints} {x : Tx}
    (hx : x ∈ (m.SelectTransactions c).1.transactions) :
    ∀ y ∈ (m.SelectTransactions c).2.table, y.id ≠ x.id := by
  unfold Mempool.SelectTransactions at hx ⊢
  split_ifs at hx ⊢ with hearly
  · exact absurd hx (by simp)
  · exact selectLoop_acc_table c m.heap [] 0 [] m.table x hx (by simp)

/-- Adding a transaction whose id is absent from the table always
succeeds and makes it visible again. -/
theorem add_ok_of_no_id {m : Mempool} {tx : Tx} (h : ∀ y ∈ m.table, y.id ≠ tx.id) :
    (m.Add tx).1 = .ok () ∧ tx ∈ (m.Add tx).2.ListTxs := by
  have hguard : ¬ m.table.any (fun t => t.id == tx.id) = true := by
    intro hany
    obtain ⟨y, hy, hb⟩ := List.any_eq_true.mp hany
    exact h y hy (by simpa using hb)
  unfold Mempool.Add
  rw [if_neg hguard]
  exact ⟨rfl, by simp [Mempool.ListTxs]⟩

/-- After any `Remove i` call (successful or not) no table entry carries
id `i`. -/
theorem remove_no_id (m : Mempool) (i : String) :
    ∀ y ∈ (m.Remove i).2.table, y.id ≠ i := by
  unfold Mempool.Remove
  split_ifs with hex
  · intro y hy
    simpa using (List.mem_filter.mp hy).2
  · exact not_any_id hex

/-! ### Strict priority order of selection output -/

theorem heap_pairwise_strict {m : Mempool} (hw : WF m) :
    m.heap.Pairwise (fun a b => txLess a b = true) := by
  obtain ⟨hsort, hhn, _, _⟩ := hw
  have hne : m.heap.Pairwise (fun a b => a.id ≠ b.id) := List.pairwise_map.mp hhn
  exact (hsort.and hne).imp (fun h => txLess_of_txLe_of_ne h.1 h.2)

theorem select_chain' {m : Mempool} (hw : WF m) (c : BlockConstraints) :
    ((m.SelectTransactions c).1.transactions).Chain' (fun a b => txLess a b = true) := by
  have hpw := heap_pairwise_strict hw
  unfold Mempool.SelectTransactions
  split_ifs with hearly
  · simp
  · obtain ⟨d, hd, hsub⟩ := selectLoop_acc_decomp c m.heap [] 0 [] m.table
    show ((selectLoop c [] 0 [] m.table m.heap).acc).Chain' _
    rw [show (selectLoop c [] 0 [] m.table m.heap).acc = d by simpa using hd]
    exact (List.Pairwise.sublist hsub hpw).chain'

/-! ### Concrete scenario states (from §8 of the specification) -/

def txS1a : Tx := ⟨"t1", "s1", "r1", 1, 50, "p", 0, 0⟩

def txS1b : Tx := ⟨"t2", "s2", "r2", 10, 50, "p", 1, 1⟩

def txS1c : Tx := ⟨"t3", "s3", "r3", 100, 50, "p", 2, 2⟩

/-- S1 state: three transactions with fees 1, 10, 100, gas 50 each. -/
def mS1 : Mempool := (((NewMempool.Add txS1a).2.Add txS1b).2.Add txS1c).2

def txA2 : Tx := ⟨"A2", "alice", "bob", 100, 100, "p", 0, 0⟩

def txB2 : Tx := ⟨"B2", "carol", "dave", 1, 1, "p", 1, 1⟩

/-- S2 state: tx A with fee 100, gas 100 and tx B with fee 1, gas 1. -/
def mS2 : Mempool := ((NewMempool.Add txA2).2.Add txB2).2

def txA3 : Tx := ⟨"A3", "alice", "bob", 1, 10, "p", 0, 0⟩

def txB3 : Tx := ⟨"B3", "carol", "dave", 100, 10, "p", 1, 1⟩

/-- S3 state: tx A with fee 1, gas 10 and tx B with fee 100, gas 10. -/
def mS3 : Mempool := ((NewMempool.Add txA3).2.Add txB3).2

def txOvf1 : Tx := ⟨"o1", "s1", "r1", 1, 2 ^ 63, "p", 0, 0⟩

def txOvf2 : Tx := ⟨"o2", "s2", "r2", 1, 2 ^ 63, "p", 1, 1⟩

/-- Two transactions of gas `2^63` each: their selection overflows the
`uint64` gas accumulator. -/
def mOvf : Mempool := ((NewMempool.Add txOvf1).2.Add txOvf2).2

/-! ### Claim C1 -/

/-- C1 (counterexample): the claim "`r.gas_used` equals the sum of `tx.gas`
over `r.transactions`, and `len(r.transactions) ≤ constraints.max_tx`" is
false on the code as stated.  First, with two transactions of gas `2^63`
and no gas limit, the `uint64` accumulator wraps: `gas_used` is `0` while
the sum is `2^64`.  Second, with `max_tx = -1` the selection returns the
empty list, whose length `0` is not `≤ -1`. -/
theorem C1_counterexample :
    ¬ ((mOvf.SelectTransactions ⟨0, 2, 0⟩).1.gasUsed =
        sumGas (mOvf.SelectTransactions ⟨0, 2, 0⟩).1.transactions) ∧
    ¬ (((NewMempool.SelectTransactions ⟨1000000, -1, 0⟩).1.transactions.length : Int) ≤
        (-1 : Int)) := by
  constructor
  · decide
  · decide

/-- C1 (amended): for every mempool state and constraints value, the result
`r` of `select` satisfies `r.gas_used = (Σ tx.gas) mod 2^64` (equal to the
exact sum whenever it fits in a `uint64`), `len(r.transactions) ≤ max_tx`
whenever `max_tx ≥ 0`, and `r.gas_used ≤ gas_limit` when `gas_limit > 0`. -/
theorem C1_amended (m : Mempool) (c : BlockConstraints) :
    (m.SelectTransactions c).1.gasUsed =
      sumGas (m.SelectTransactions c).1.transactions % U64 ∧
    (0 ≤ c.maxTx → (((m.SelectTransactions c).1.transactions.length : Int) ≤ c.maxTx)) ∧
    (0 < c.gasLimit → (m.SelectTransactions c).1.gasUsed ≤ c.gasLimit) := by
  unfold Mempool.SelectTransactions
  split_ifs with hearly
  · exact ⟨by simp [sumGas, U64], fun h => by simpa using h, fun _ => by simp⟩
  · refine ⟨?_, fun h => ?_, fun h => ?_⟩
    · show (selectLoop c [] 0 [] m.table m.heap).gasUsed =
        sumGas (selectLoop c [] 0 [] m.table m.heap).acc % U64
      exact selectLoop_gasSum c m.heap [] 0 [] m.table (by simp [sumGas])
    · show (((selectLoop c [] 0 [] m.table m.heap).acc.length : Int)) ≤ c.maxTx
      exact selectLoop_length c m.heap [] 0 [] m.table (by simpa using h)
    · show (selectLoop c [] 0 [] m.table m.heap).gasUsed ≤ c.gasLimit
      exact selectLoop_gasLimit c m.heap [] 0 [] m.table h (Nat.zero_le _)

theorem C1_amended_witness :
    (mS1.SelectTransactions ⟨1000000, 3, 0⟩).1.gasUsed =
      sumGas (mS1.SelectTransactions ⟨1000000, 3, 0⟩).1.transactions % U64 ∧
    ((mS1.SelectTransactions ⟨1000000, 3, 0⟩).1.transactions.length : Int) ≤ 3 ∧
    (mS1.SelectTransactions ⟨1000000, 3, 0⟩).1.gasUsed ≤ 1000000 :=
  ⟨(C1_amended mS1 ⟨1000000, 3, 0⟩).1,
   (C1_amended mS1 ⟨1000000, 3, 0⟩).2.1 (by decide),
   (C1_amended mS1 ⟨1000000, 3, 0⟩).2.2 (by decide)⟩

/-! ### Claim C2 -/

/-- C2: for every reachable mempool state, the list returned by `select` is
in strictly decreasing priority order — each consecutive pair `a, b`
satisfies `a.fee > b.fee`, or equal fees and `a.timestamp < b.timestamp`,
or equal fees and timestamps and `a.id < b.id` (this is exactly `txLess`);
and in the S1 scenario (fees 1, 10, 100, gas 50, distinct senders),
`select {gas_limit 1000000, max_tx 3, min_fee 0}` returns exactly three
transactions with fees `[100, 10, 1]` and `gas_used = 150`. -/
theorem C2_select_priority_order :
    (∀ m : Mempool, Reach m → ∀ c : BlockConstraints,
      ((m.SelectTransactions c).1.transactions).Chain' (fun a b => txLess a b = true)) ∧
    ((mS1.SelectTransactions ⟨1000000, 3, 0⟩).1.transactions.map (fun t => t.fee) =
        [100, 10, 1] ∧
      (mS1.SelectTransactions ⟨1000000, 3, 0⟩).1.transactions.length = 3 ∧
      (mS1.SelectTransactions ⟨1000000, 3, 0⟩).1.gasUsed = 150) := by
  refine ⟨fun m hm c => select_chain' hm.wf c, ?_, ?_, ?_⟩
  · decide
  · decide
  · decide

theorem C2_witness :
    ((mS1.SelectTransactions ⟨1000000, 3, 0⟩).1.transactions).Chain'
      (fun a b => txLess a b = true) :=
  C2_select_priority_order.1 mS1
    (Reach.add txS1c (Reach.add txS1b (Reach.add txS1a Reach.empty)))
    ⟨1000000, 3, 0⟩

/-! ### Claim C3 -/

/-- C3: every transaction popped during `select` whose fee is strictly
below `min_fee` is permanently removed — absent from the returned list,
from the resulting heap, and from the resulting table (hence from every
subsequent `list` or `select` observation); and in the S3 scenario
(A: fee 1, gas 10; B: fee 100, gas 10), `select {gas_limit 1000000,
max_tx 10, min_fee 50}` returns exactly `[B]` and the subsequent `list` is
empty. -/
theorem C3_min_fee_purge :
    (∀ m : Mempool, Reach m → ∀ (c : BlockConstraints) (x : Tx),
      x ∈ m.selectPopped c → x.fee < c.minFee →
      x ∉ (m.SelectTransactions c).1.transactions ∧
      x ∉ (m.SelectTransactions c).2.heap ∧
      ∀ y ∈ (m.SelectTransactions c).2.table, y.id ≠ x.id) ∧
    ((mS3.SelectTransactions ⟨1000000, 10, 50⟩).1.transactions = [txB3] ∧
     (mS3.SelectTransactions ⟨1000000, 10, 50⟩).2.ListTxs = []) := by
  refine ⟨fun m hm c x hx hf => select_purged hm.wf hx hf, ?_, ?_⟩
  · decide
  · decide

theorem C3_witness :
    txA3 ∈ mS3.selectPopped ⟨1000000, 10, 50⟩ ∧
    txA3 ∉ (mS3.SelectTransactions ⟨1000000, 10, 50⟩).1.transactions ∧
    txA3 ∉ (mS3.SelectTransactions ⟨1000000, 10, 50⟩).2.heap :=
  ⟨by decide,
   (C3_min_fee_purge.1 mS3 (Reach.add txB3 (Reach.add txA3 Reach.empty))
      ⟨1000000, 10, 50⟩ txA3 (by decide) (by decide)).1,
   (C3_min_fee_purge.1 mS3 (Reach.add txB3 (Reach.add txA3 Reach.empty))
      ⟨1000000, 10, 50⟩ txA3 (by decide) (by decide)).2.1⟩

/-! ### Claim C4 -/

/-- C4: during `select` with `gas_limit > 0`, a popped transaction that
meets the fee floor but is absent from the returned list was skipped, not
purged: it remains in the resulting heap and table with all fields
unchanged (the very same `Tx` value); and in the S2 scenario (A: fee 100,
gas 100; B: fee 1, gas 1), `select {gas_limit 1, max_tx 10, min_fee 0}`
returns exactly `[B]` with `gas_used = 1` and the subsequent `list`
contains exactly A. -/
theorem C4_gas_limit_skip :
    (∀ m : Mempool, Reach m → ∀ (c : BlockConstraints) (x : Tx),
      0 < c.gasLimit → x ∈ m.selectPopped c → ¬ x.fee < c.minFee →
      x ∉ (m.SelectTransactions c).1.transactions →
      x ∈ (m.SelectTransactions c).2.heap ∧ x ∈ (m.SelectTransactions c).2.table) ∧
    ((mS2.SelectTransactions ⟨1, 10, 0⟩).1.transactions = [txB2] ∧
     (mS2.SelectTransactions ⟨1, 10, 0⟩).1.gasUsed = 1 ∧
     (mS2.SelectTransactions ⟨1, 10, 0⟩).2.ListTxs = [txA2]) := by
  refine ⟨fun m hm c x _ hx hnf hnacc => select_skipped hm.wf hx hnf hnacc, ?_, ?_, ?_⟩
  · decide
  · decide
  · decide

theorem C4_witness :
    txA2 ∈ (mS2.SelectTransactions ⟨1, 10, 0⟩).2.heap ∧
    txA2 ∈ (mS2.SelectTransactions ⟨1, 10, 0⟩).2.table :=
  C4_gas_limit_skip.1 mS2 (Reach.add txB2 (Reach.add txA2 Reach.empty)) ⟨1, 10, 0⟩
    txA2 (by decide) (by decide) (by decide) (by decide)

/-! ### Claim C9 -/

/-- C9: `Add`, `Update`, and `Remove` are atomic on failure — whenever they
return `ErrTxExists` / `ErrTxNotFound`, the mempool state (heap and table,
hence the transaction set, all fields, and the priority order) is exactly
what it was before the call. -/
theorem C9_atomic_failure (m : Mempool) (tx : Tx) (i : String) :
    ((m.Add tx).1 = .error .txExists → (m.Add tx).2 = m) ∧
    ((m.Update tx).1 = .error .txNotFound → (m.Update tx).2 = m) ∧
    ((m.Remove i).1 = .error .txNotFound → (m.Remove i).2 = m) := by
  refine ⟨?_, ?_, ?_⟩
  · unfold Mempool.Add
    split_ifs
    · intro _; rfl
    · intro h; simp at h
  · unfold Mempool.Update
    split_ifs
    · intro h; simp at h
    · intro _; rfl
  · unfold Mempool.Remove
    split_ifs
    · intro h; simp at h
    · intro _; rfl

theorem C9_witness :
    (((NewMempool.Add txS1a).2.Add txS1a).1 = .error .txExists ∧
      ((NewMempool.Add txS1a).2.Add txS1a).2 = (NewMempool.Add txS1a).2) ∧
    ((NewMempool.Update txS1a).1 = .error .txNotFound ∧
      (NewMempool.Update txS1a).2 = NewMempool) ∧
    ((NewMempool.Remove "z").1 = .error .txNotFound ∧
      (NewMempool.Remove "z").2 = NewMempool) :=
  ⟨⟨rfl, (C9_atomic_failure (NewMempool.Add txS1a).2 txS1a "z").1 rfl⟩,
   ⟨rfl, (C9_atomic_failure NewMempool txS1a "z").2.1 rfl⟩,
   ⟨rfl, (C9_atomic_failure NewMempool txS1a "z").2.2 rfl⟩⟩

/-! ### Claim C10 -/

/-- C10: the mempool retains no memory of past ids.  After any `Remove i`
call, adding a transaction with id `i` succeeds and the transaction shows
up in `list`; the same holds in the state after a `select` for the id of
any returned (drained) transaction, and for the id of any transaction
purged by the low-fee rule. -/
theorem C10_no_id_memory :
    (∀ (m : Mempool) (i : String) (tx : Tx), tx.id = i →
      (((m.Remove i).2.Add tx).1 = .ok () ∧
        tx ∈ ((m.Remove i).2.Add tx).2.ListTxs)) ∧
    (∀ (m : Mempool) (c : BlockConstraints) (x tx : Tx),
      x ∈ (m.SelectTransactions c).1.transactions → tx.id = x.id →
      (((m.SelectTransactions c).2.Add tx).1 = .ok () ∧
        tx ∈ ((m.SelectTransactions c).2.Add tx).2.ListTxs)) ∧
    (∀ m : Mempool, Reach m → ∀ (c : BlockConstraints) (x tx : Tx),
      x ∈ m.selectPopped c → x.fee < c.minFee → tx.id = x.id →
      (((m.SelectTransactions c).2.Add tx).1 = .ok () ∧
        tx ∈ ((m.SelectTransactions c).2.Add tx).2.ListTxs)) := by
  refine ⟨?_, ?_, ?_⟩
  · intro m i tx hid
    exact add_ok_of_no_id (fun y hy he => remove_no_id m i y hy (he.trans hid))
  · intro m c x tx hx hid
    exact add_ok_of_no_id (fun y hy he => select_accepted_gone hx y hy (he.trans hid))
  · intro m hm c x tx hx hf hid
    exact add_ok_of_no_id
      (fun y hy he => (select_purged hm.wf hx hf).2.2 y hy (he.trans hid))

theorem C10_witness :
    ((((NewMempool.Add txS1a).2.Remove "t1").2.Add txS1a).1 = .ok () ∧
      txS1a ∈ (((NewMempool.Add txS1a).2.Remove "t1").2.Add txS1a).2.ListTxs) ∧
    (((mS3.SelectTransactions ⟨1000000, 10, 50⟩).2.Add txB3).1 = .ok () ∧
      txB3 ∈ ((mS3.SelectTransactions ⟨1000000, 10, 50⟩).2.Add txB3).2.ListTxs) ∧
    (((mS3.SelectTransactions ⟨1000000, 10, 50⟩).2.Add txA3).1 = .ok () ∧
      txA3 ∈ ((mS3.SelectTransactions ⟨1000000, 10, 50⟩).2.Add txA3).2.ListTxs) :=
  ⟨C10_no_id_memory.1 (NewMempool.Add txS1a).2 "t1" txS1a rfl,
   C10_no_id_memory.2.1 mS3 ⟨1000000, 10, 50⟩ txB3 txB3 (by decide) rfl,
   C10_no_id_memory.2.2 mS3 (Reach.add txB3 (Reach.add txA3 Reach.empty))
     ⟨1000000, 10, 50⟩ txA3 txA3 (by decide) (by decide) rfl⟩

/-! ### Decimal rendering: `strconv.FormatUint` / `strconv.FormatInt`, base 10

The Go code renders integers in base 10 when deriving transaction ids and
block-hash preimages.  We embed the rendering as a Lean function and prove
it injective and free of the `|` separator character, which is what the
identity and hashing claims rest on. -/

/-- Base-10 digits, least significant first, with explicit fuel so that the
definition is structurally recursive (and hence kernel-reducible). -/
def natDigitsLEAux : Nat → Nat → List Nat
  | 0, _ => []
  | _ + 1, 0 => []
  | fuel + 1, n + 1 => (n + 1) % 10 :: natDigitsLEAux fuel ((n + 1) / 10)

/-- Base-10 digits of `n`, least significant first (`n` is enough fuel). -/
def natDigitsLE (n : Nat) : List Nat := natDigitsLEAux n n

/-- Evaluation of a little-endian digit list. -/
def undigitsLE : List Nat → Nat
  | [] => 0
  | d :: ds => d + 10 * undigitsLE ds

theorem undigits_natDigitsLEAux : ∀ fuel n : Nat, n ≤ fuel →
    undigitsLE (natDigitsLEAux fuel n) = n
  | 0, n, h => by
    have hn : n = 0 := Nat.le_zero.mp h
    subst hn
    rfl
  | fuel + 1, 0, _ => rfl
  | fuel + 1, n + 1, h => by
    have hdiv : (n + 1) / 10 ≤ fuel := by
      have := Nat.div_lt_self (Nat.succ_pos n) (show 1 < 10 by norm_num)
      omega
    simp only [natDigitsLEAux, undigitsLE]
    rw [undigits_natDigitsLEAux fuel ((n + 1) / 10) hdiv]
    omega

theorem undigits_natDigitsLE (n : Nat) : undigitsLE (natDigitsLE n) = n :=
  undigits_natDigitsLEAux n n le_rfl

theorem natDigitsLE_inj {a b : Nat} (h : natDigitsLE a = natDigitsLE b) : a = b := by
  have ha := undigits_natDigitsLE a
  have hb := undigits_natDigitsLE b
  rw [h] at ha
  omega

theorem natDigitsLEAux_lt : ∀ fuel n : Nat, ∀ d ∈ natDigitsLEAux fuel n, d < 10
  | 0, _ => by simp [natDigitsLEAux]
  | fuel + 1, 0 => by simp [natDigitsLEAux]
  | fuel + 1, n + 1 => by
    simp only [natDigitsLEAux]
    intro d hd
    rcases List.mem_cons.mp hd with rfl | hd
    · omega
    · exact natDigitsLEAux_lt fuel ((n + 1) / 10) d hd

theorem natDigitsLE_lt (n : Nat) : ∀ d ∈ natDigitsLE n, d < 10 :=
  natDigitsLEAux_lt n n

/-- The base-10 digit characters `'0'`–`'9'`. -/
def digitChar (d : Nat) : Char :=
  match d with
  | 0 => '0' | 1 => '1' | 2 => '2' | 3 => '3' | 4 => '4'
  | 5 => '5' | 6 => '6' | 7 => '7' | 8 => '8' | 9 => '9'
  | _ => '*'

theorem digitChar_toNat {d : Nat} (h : d < 10) : (digitChar d).toNat = 48 + d := by
  interval_cases d <;> rfl

theorem digitChar_inj {a b : Nat} (ha : a < 10) (hb : b < 10)
    (h : digitChar a = digitChar b) : a = b := by
  have := congrArg Char.toNat h
  rw [digitChar_toNat ha, digitChar_toNat hb] at this
  omega

theorem digitChar_ne_pipe {d : Nat} (h : d < 10) : digitChar d ≠ '|' := by
  intro he
  have hn := congrArg Char.toNat he
  rw [digitChar_toNat h, show ('|' : Char).toNat = 124 from rfl] at hn
  omega

theorem digitChar_ne_minus {d : Nat} (h : d < 10) : digitChar d ≠ '-' := by
  intro he
  have hn := congrArg Char.toNat he
  rw [digitChar_toNat h, show ('-' : Char).toNat = 45 from rfl] at hn
  omega

theorem map_digitChar_inj : ∀ {l1 l2 : List Nat},
    (∀ d ∈ l1, d < 10) → (∀ d ∈ l2, d < 10) →
    l1.map digitChar = l2.map digitChar → l1 = l2
  | [], [], _, _, _ => rfl
  | [], _ :: _, _, _, h => by simp at h
  | _ :: _, [], _, _, h => by simp at h
  | a :: l1, b :: l2, h1, h2, h => by
    simp only [List.map_cons, List.cons.injEq] at h
    have hab := digitChar_inj (h1 a (by simp)) (h2 b (by simp)) h.1
    have htl := map_digitChar_inj (fun d hd => h1 d (by simp [hd]))
      (fun d hd => h2 d (by simp [hd])) h.2
    rw [hab, htl]

/-- `strconv.FormatUint(n, 10)`. -/
def formatNat (n : Nat) : String :=
  if n = 0 then "0" else ⟨(natDigitsLE n).reverse.map digitChar⟩

theorem formatNat_data (n : Nat) :
    (formatNat n).data = if n = 0 then ['0'] else (natDigitsLE n).reverse.map digitChar := by
  unfold formatNat
  split_ifs <;> rfl

theorem formatNat_chars {n : Nat} : ∀ ch ∈ (formatNat n).data, ch ≠ '|' ∧ ch ≠ '-' := by
  intro ch hch
  rw [formatNat_data] at hch
  split_ifs at hch with h
  · simp at hch
    subst hch
    exact ⟨by decide, by decide⟩
  · obtain ⟨d, hd, he⟩ := List.mem_map.mp hch
    have hd10 := natDigitsLE_lt n d (List.mem_reverse.mp hd)
    exact he ▸ ⟨digitChar_ne_pipe hd10, digitChar_ne_minus hd10⟩

theorem formatNat_singleton_zero {b : Nat} (hb : ¬ b = 0)
    (h : (natDigitsLE b).reverse.map digitChar = ['0']) : False := by
  rcases hx : (natDigitsLE b).reverse with _ | ⟨c, cs⟩
  · rw [hx] at h
    simp at h
  · rw [hx] at h
    rcases cs with _ | ⟨c2, cs2⟩
    · simp only [List.map_cons, List.map_nil, List.cons.injEq, List.nil_eq] at h
      have hcmem : c ∈ (natDigitsLE b).reverse := by rw [hx]; simp
      have hc10 : c < 10 := natDigitsLE_lt b c (List.mem_reverse.mp hcmem)
      have hc0 : c = 0 := by
        have ht := digitChar_toNat hc10
        rw [h.1, show ('0' : Char).toNat = 48 from rfl] at ht
        omega
      subst hc0
      have hdig : natDigitsLE b = [0] := by
        have := congrArg List.reverse hx
        simpa using this
      have hb0 := undigits_natDigitsLE b
      rw [hdig] at hb0
      simp [undigitsLE] at hb0
      omega
    · simp at h

theorem formatNat_inj {a b : Nat} (h : formatNat a = formatNat b) : a = b := by
  have hd := congrArg String.data h
  rw [formatNat_data, formatNat_data] at hd
  split_ifs at hd with ha hb hb
  · omega
  · exact absurd hd.symm (fun he => formatNat_singleton_zero hb he)
  · exact absurd hd (fun he => formatNat_singleton_zero ha he)
  · have hrev := map_digitChar_inj
      (fun d hd => natDigitsLE_lt a d (List.mem_reverse.mp hd))
      (fun d hd => natDigitsLE_lt b d (List.mem_reverse.mp hd)) hd
    exact natDigitsLE_inj (List.reverse_injective hrev)

/-- `strconv.FormatInt(i, 10)`. -/
def formatInt (i : Int) : String :=
  if i < 0 then "-" ++ formatNat i.natAbs else formatNat i.toNat

theorem formatInt_chars {i : Int} : ∀ ch ∈ (formatInt i).data, ch ≠ '|' := by
  intro ch hch
  unfold formatInt at hch
  split_ifs at hch with h
  · rw [String.data_append] at hch
    rcases List.mem_append.mp hch with h1 | h1
    · simp only [show ("-" : String).data = ['-'] from rfl, List.mem_singleton] at h1
      subst h1
      decide
    · exact (formatNat_chars ch h1).1
  · exact (formatNat_chars ch hch).1

theorem formatInt_inj {a b : Int} (h : formatInt a = formatInt b) : a = b := by
  unfold formatInt at h
  split_ifs at h with ha hb hb
  · have := congrArg String.data h
    rw [String.data_append, String.data_append] at this
    have hfmt : (formatNat a.natAbs).data = (formatNat b.natAbs).data :=
      List.append_cancel_left this
    have := formatNat_inj (String.ext hfmt)
    omega
  · exfalso
    have hdata := congrArg String.data h
    rw [String.data_append] at hdata
    have : '-' ∈ (formatNat b.toNat).data := by
      rw [← hdata]
      simp [show ("-" : String).data = ['-'] from rfl]
    exact (formatNat_chars '-' this).2 rfl
  · exfalso
    have hdata := congrArg String.data h
    rw [String.data_append] at hdata
    have : '-' ∈ (formatNat a.toNat).data := by
      rw [hdata]
      simp [show ("-" : String).data = ['-'] from rfl]
    exact (formatNat_chars '-' this).2 rfl
  · have := formatNat_inj h
    omega

/-! ### Splitting pipe-separated encodings -/

/-- `s` contains no `'|'` character. -/
def noPipe (s : String) : Prop := ∀ ch ∈ s.data, ch ≠ '|'

instance (s : String) : Decidable (noPipe s) := by
  unfold noPipe
  infer_instance

theorem pipe_split : ∀ {a b u v : List Char},
    (∀ ch ∈ a, ch ≠ '|') → (∀ ch ∈ b, ch ≠ '|') →
    a ++ '|' :: u = b ++ '|' :: v → a = b ∧ u = v
  | [], [], u, v, _, _, h => ⟨rfl, by simpa using h⟩
  | [], x :: b, u, v, _, hb, h => by
    simp only [List.nil_append, List.cons_append, List.cons.injEq] at h
    exact absurd h.1.symm (hb x (by simp))
  | x :: a, [], u, v, ha, _, h => by
    simp only [List.nil_append, List.cons_append, List.cons.injEq] at h
    exact absurd h.1 (ha x (by simp))
  | x :: a, y :: b, u, v, ha, hb, h => by
    simp only [List.cons_append, List.cons.injEq] at h
    obtain ⟨h1, h2⟩ := pipe_split (fun ch hch => ha ch (by simp [hch]))
      (fun ch hch => hb ch (by simp [hch])) h.2
    exact ⟨by rw [h.1, h1], h2⟩

/-! ### Byte streams and SHA-256

`strBytes` models the UTF-8 byte stream of a string at the codepoint
level; the claims only use that the byte stream determines the string,
which holds for real UTF-8 encoding as well.  `sha256Bytes` is the real
SHA-256 compression function; no claim depends on its internals, only on
its input (the claims about hash inequality reduce to preimage
inequality, since a hash function cannot be injective). -/

def strBytes (s : String) : List Nat := s.data.map Char.toNat

theorem char_toNat_inj : Function.Injective Char.toNat := by
  intro a b h
  have hv : a.val = b.val := by
    have h2 : a.val.toNat = b.val.toNat := h
    exact UInt32.toNat.inj h2
  exact Char.ext hv

theorem strBytes_inj {s t : String} (h : strBytes s = strBytes t) : s = t :=
  String.ext (List.map_injective_iff.mpr char_toNat_inj h)

/-- Right rotation of a 32-bit word. -/
def rotr32 (x n : Nat) : Nat := ((x >>> n) ||| (x <<< (32 - n))) % 2 ^ 32

def bigSigma0 (x : Nat) : Nat := (rotr32 x 2) ^^^ (rotr32 x 13) ^^^ (rotr32 x 22)

def bigSigma1 (x : Nat) : Nat := (rotr32 x 6) ^^^ (rotr32 x 11) ^^^ (rotr32 x 25)

def smallSigma0 (x : Nat) : Nat := (rotr32 x 7) ^^^ (rotr32 x 18) ^^^ (x >>> 3)

def smallSigma1 (x : Nat) : Nat := (rotr32 x 17) ^^^ (rotr32 x 19) ^^^ (x >>> 10)

/-- The 64 SHA-256 round constants (decimal). -/
def sha256K : List Nat :=
  [1116352408, 1899447441, 3049323471, 3921009573, 961987163,
   1508970993, 2453635748, 2870763221, 3624381080, 310598401,
   607225278, 1426881987, 1925078388, 2162078206, 2614888103,
   3248222580, 3835390401, 4022224774, 264347078, 604807628,
   770255983, 1249150122, 1555081692, 1996064986, 2554220882,
   2821834349, 2952996808, 3210313671, 3336571891, 3584528711,
   113926993, 338241895, 666307205, 773529912, 1294757372,
   1396182291, 1695183700, 1986661051, 2177026350, 2456956037,
   2730485921, 2820302411, 3259730800, 3345764771, 3516065817,
   3600352804, 4094571909, 275423344, 430227734, 506948616,
   659060556, 883997877, 958139571, 1322822218, 1537002063,
   1747873779, 1955562222, 2024104815, 2227730452, 2361852424,
   2428436474, 2756734187, 3204031479, 3329325298]

/-- The initial SHA-256 state (decimal). -/
def sha256H0 : List Nat :=
  [1779033703, 3144134277, 1013904242, 2773480762,
   1359893119, 2600822924, 528734635, 1541459225]

def be64 (n : Nat) : List Nat :=
  [(n >>> 56) % 256, (n >>> 48) % 256, (n >>> 40) % 256, (n >>> 32) % 256,
   (n >>> 24) % 256, (n >>> 16) % 256, (n >>> 8) % 256, n % 256]

def be32 (n : Nat) : List Nat :=
  [(n >>> 24) % 256, (n >>> 16) % 256, (n >>> 8) % 256, n % 256]

/-- SHA-256 padding: `0x80`, zeros, then the bit length as 8 big-endian
bytes, to a multiple of 64 bytes. -/
def sha256Pad (msg : List Nat) : List Nat :=
  msg ++ 0x80 :: (List.replicate ((64 - (msg.length + 9) % 64) % 64) 0 ++
    be64 (8 * msg.length))

/-- Big-endian 32-bit words from bytes. -/
def bytesToWords : List Nat → List Nat
  | b0 :: b1 :: b2 :: b3 :: rest =>
    (((b0 * 256 + b1) * 256 + b2) * 256 + b3) :: bytesToWords rest
  | _ => []

/-- Extend the 16-word block to the 64-word message schedule. -/
def extendSchedule : Nat → List Nat → List Nat
  | 0, ws => ws
  | k + 1, ws =>
    extendSchedule k (ws ++ [(smallSigma1 (ws.getD (ws.length - 2) 0) +
      ws.getD (ws.length - 7) 0 + smallSigma0 (ws.getD (ws.length - 15) 0) +
      ws.getD (ws.length - 16) 0) % 2 ^ 32])

/-- One SHA-256 round on the eight working registers. -/
def sha256Step (r : List Nat) (kw : Nat × Nat) : List Nat :=
  let a := r.getD 0 0
  let b := r.getD 1 0
  let c := r.getD 2 0
  let d := r.getD 3 0
  let e := r.getD 4 0
  let f := r.getD 5 0
  let g := r.getD 6 0
  let h := r.getD 7 0
  let t1 := (h + bigSigma1 e + ((e &&& f) ^^^ ((e ^^^ (2 ^ 32 - 1)) &&& g)) +
    kw.1 + kw.2) % 2 ^ 32
  let t2 := (bigSigma0 a + ((a &&& b) ^^^ (a &&& c) ^^^ (b &&& c))) % 2 ^ 32
  [(t1 + t2) % 2 ^ 32, a, b, c, (d + t1) % 2 ^ 32, e, f, g]

/-- Compression of one 64-byte block into the running state. -/
def sha256Compress (hs block : List Nat) : List Nat :=
  let r := ((sha256K.zip (extendSchedule 48 (bytesToWords block))).foldl
    sha256Step hs)
  (hs.zip r).map (fun p => (p.1 + p.2) % 2 ^ 32)

def chunks64 : List Nat → List (List Nat)
  | [] => []
  | b :: rest => (b :: rest).take 64 :: chunks64 ((b :: rest).drop 64)
termination_by l => l.length
decreasing_by simp [List.length_drop]; omega

/-- SHA-256 digest (32 bytes) of a byte stream. -/
def sha256Bytes (msg : List Nat) : List Nat :=
  ((chunks64 (sha256Pad msg)).foldl sha256Compress sha256H0).foldr
    (fun w acc => be32 w ++ acc) []

/-- Lowercase hex digit characters, as produced by Go `hex.EncodeToString`. -/
def hexChar (d : Nat) : Char := if d < 10 then digitChar d else Char.ofNat (87 + d)

def hexEncode (bs : List Nat) : String :=
  ⟨bs.foldr (fun b acc => hexChar (b / 16) :: hexChar (b % 16) :: acc) []⟩

/-! ### `GenerateTxID` (tx.go) -/

/-- The string hashed by `GenerateTxID`:
`sender + "|" + recipient + "|" + payload + "|" + FormatInt(createdAtNanos, 10)`. -/
def txIDRaw (sender recipient payload : String) (createdAtNanos : Int) : String :=
  sender ++ "|" ++ recipient ++ "|" ++ payload ++ "|" ++ formatInt createdAtNanos

/-- `GenerateTxID` (tx.go): hex-encoded SHA-256 of the raw string. -/
def GenerateTxID (sender recipient payload : String) (createdAtNanos : Int) : String :=
  hexEncode (sha256Bytes (strBytes (txIDRaw sender recipient payload createdAtNanos)))

theorem txIDRaw_data (s r p : String) (n : Int) :
    (txIDRaw s r p n).data =
      s.data ++ '|' :: (r.data ++ '|' :: (p.data ++ '|' :: (formatInt n).data)) := by
  simp [txIDRaw, String.data_append]

/-- Injectivity of the id preimage on pipe-free fields. -/
theorem txIDRaw_inj {s r p : String} {n : Int} {s2 r2 p2 : String} {n2 : Int}
    (hs : noPipe s) (hr : noPipe r) (hp : noPipe p)
    (hs2 : noPipe s2) (hr2 : noPipe r2) (hp2 : noPipe p2)
    (h : txIDRaw s r p n = txIDRaw s2 r2 p2 n2) :
    s = s2 ∧ r = r2 ∧ p = p2 ∧ n = n2 := by
  have hd := congrArg String.data h
  rw [txIDRaw_data, txIDRaw_data] at hd
  obtain ⟨h1, hd⟩ := pipe_split hs hs2 hd
  obtain ⟨h2, hd⟩ := pipe_split hr hr2 hd
  obtain ⟨h3, hd⟩ := pipe_split hp hp2 hd
  exact ⟨String.ext h1, String.ext h2, String.ext h3, formatInt_inj (String.ext hd)⟩

/-! ### Claim C8 -/

/-- C8 (counterexample): the inputs `("a|b", "c", "p", 0)` and
`("a", "b|c", "p", 0)` differ, yet `derive_id` yields the same id for
both, because the `|`-separated preimage `"a|b|c|p|0"` is identical — the
separator is not escaped, so a pipe inside a field shifts the field
boundaries. -/
theorem C8_counterexample :
    GenerateTxID "a|b" "c" "p" 0 = GenerateTxID "a" "b|c" "p" 0 ∧
    ("a|b", "c", "p", (0 : Int)) ≠ ("a", "b|c", "p", (0 : Int)) := by
  constructor
  · exact congrArg (fun s => hexEncode (sha256Bytes (strBytes s)))
      (by decide : txIDRaw "a|b" "c" "p" 0 = txIDRaw "a" "b|c" "p" 0)
  · decide

/-- C8 (amended): `derive_id` is deterministic — identical inputs yield
the identical id; and for inputs whose sender, recipient, and payload
contain no `'|'` character, any difference in the tuple — including a
single-nanosecond difference in `created_at` — changes the byte string fed
to SHA-256 (the ids then differ unless SHA-256 itself collides, which is
outside the model). -/
theorem C8_amended :
    (∀ (s r p : String) (n : Int) (s2 r2 p2 : String) (n2 : Int),
      s = s2 → r = r2 → p = p2 → n = n2 →
      GenerateTxID s r p n = GenerateTxID s2 r2 p2 n2) ∧
    (∀ (s r p : String) (n : Int) (s2 r2 p2 : String) (n2 : Int),
      noPipe s → noPipe r → noPipe p → noPipe s2 → noPipe r2 → noPipe p2 →
      (s, r, p, n) ≠ (s2, r2, p2, n2) →
      txIDRaw s r p n ≠ txIDRaw s2 r2 p2 n2) := by
  constructor
  · intro s r p n s2 r2 p2 n2 h1 h2 h3 h4
    rw [h1, h2, h3, h4]
  · intro s r p n s2 r2 p2 n2 hs hr hp hs2 hr2 hp2 hne he
    obtain ⟨e1, e2, e3, e4⟩ := txIDRaw_inj hs hr hp hs2 hr2 hp2 he
    exact hne (by rw [e1, e2, e3, e4])

theorem C8_amended_witness :
    GenerateTxID "alice" "bob" "hello" 7 = GenerateTxID "alice" "bob" "hello" 7 ∧
    txIDRaw "alice" "bob" "hello" 7 ≠ txIDRaw "alice" "bob" "hello" 8 :=
  ⟨C8_amended.1 "alice" "bob" "hello" 7 "alice" "bob" "hello" 7 rfl rfl rfl rfl,
   C8_amended.2 "alice" "bob" "hello" 7 "alice" "bob" "hello" 8
     (by decide) (by decide) (by decide) (by decide) (by decide) (by decide)
     (by decide)⟩

/-! ### Blocks and `Block.Hash` (types.go, block.go) -/

/-- `BlockHeader` (types.go).  `PrevHash [32]byte` is embedded as a list
of byte values; `Timestamp` is the `UnixNano` instant of the UTC time. -/
structure BlockHeader where
  height : Nat
  prevHash : List Nat
  timestamp : Int
  txCount : Int
  gasUsed : Nat
deriving DecidableEq, Repr

/-- `Block` (types.go): header plus ordered transactions. -/
structure Block where
  header : BlockHeader
  transactions : List Tx
deriving DecidableEq, Repr

/-- `time.RFC3339Nano` rendering of a UTC instant, embedded as the decimal
nanosecond count: the real rendering is calendar arithmetic that is
injective on instants and free of `'|'` — the only two properties any
claim uses. -/
def rfc3339Nano (t : Int) : String := formatInt t

/-- The header string written by `Block.Hash` (block.go):
`"height=H|timestamp=T|txcount=C|gasused=G"`. -/
def headerString (h : BlockHeader) : String :=
  "height=" ++ formatNat h.height ++ "|timestamp=" ++ rfc3339Nano h.timestamp ++
    "|txcount=" ++ formatInt h.txCount ++ "|gasused=" ++ formatNat h.gasUsed

/-- The concatenation of the included transaction ids (block.go writes
each id in block order with no separator). -/
def idsString (b : Block) : String :=
  String.join (b.transactions.map (fun t => t.id))

/-- The byte stream hashed by `Block.Hash` (block.go): header string, the
raw 32 `prev_hash` bytes, then the id bytes. -/
def blockHashInput (b : Block) : List Nat :=
  strBytes (headerString b.header) ++ b.header.prevHash ++ strBytes (idsString b)

/-- `Block.Hash` (block.go): SHA-256 over the byte stream above. -/
def Block.Hash (b : Block) : List Nat := sha256Bytes (blockHashInput b)

theorem headerString_data (h : BlockHeader) :
    (headerString h).data =
      (("height=" : String).data ++ (formatNat h.height).data) ++ '|' ::
      ((("timestamp=" : String).data ++ (rfc3339Nano h.timestamp).data) ++ '|' ::
      ((("txcount=" : String).data ++ (formatInt h.txCount).data) ++ '|' ::
      (("gasused=" : String).data ++ (formatNat h.gasUsed).data))) := by
  simp only [headerString, String.data_append]
  simp [List.append_assoc]

theorem seg_noPipe {lit : List Char} (hlit : ∀ ch ∈ lit, ch ≠ '|') {f : List Char}
    (hf : ∀ ch ∈ f, ch ≠ '|') : ∀ ch ∈ lit ++ f, ch ≠ '|' := fun ch hch =>
  (List.mem_append.mp hch).elim (hlit ch) (hf ch)

/-- The header string determines every header field except `prev_hash`. -/
theorem headerString_inj {h1 h2 : BlockHeader}
    (hph : h1.prevHash = h2.prevHash)
    (h : headerString h1 = headerString h2) : h1 = h2 := by
  have hd := congrArg String.data h
  rw [headerString_data, headerString_data] at hd
  obtain ⟨e1, hd⟩ := pipe_split
    (seg_noPipe (by decide) (fun ch hch => (formatNat_chars ch hch).1))
    (seg_noPipe (by decide) (fun ch hch => (formatNat_chars ch hch).1)) hd
  obtain ⟨e2, hd⟩ := pipe_split
    (seg_noPipe (by decide) (fun ch hch => formatInt_chars ch hch))
    (seg_noPipe (by decide) (fun ch hch => formatInt_chars ch hch)) hd
  obtain ⟨e3, hd⟩ := pipe_split
    (seg_noPipe (by decide) (fun ch hch => formatInt_chars ch hch))
    (seg_noPipe (by decide) (fun ch hch => formatInt_chars ch hch)) hd
  have hheight : h1.height = h2.height :=
    formatNat_inj (String.ext (List.append_cancel_left e1))
  have hts : h1.timestamp = h2.timestamp :=
    formatInt_inj (String.ext (List.append_cancel_left e2))
  have htc : h1.txCount = h2.txCount :=
    formatInt_inj (String.ext (List.append_cancel_left e3))
  have hgas : h1.gasUsed = h2.gasUsed :=
    formatNat_inj (String.ext (List.append_cancel_left hd))
  cases h1
  cases h2
  simp only [BlockHeader.mk.injEq]
  exact ⟨hheight, hph, hts, htc, hgas⟩

/-- With 32-byte `prev_hash` values and equal id streams, the hash
preimage determines the whole header. -/
theorem blockHashInput_inj_header {b1 b2 : Block}
    (hl1 : b1.header.prevHash.length = 32) (hl2 : b2.header.prevHash.length = 32)
    (hids : idsString b1 = idsString b2)
    (h : blockHashInput b1 = blockHashInput b2) : b1.header = b2.header := by
  unfold blockHashInput at h
  rw [hids] at h
  have happ : (strBytes (headerString b1.header) ++ b1.header.prevHash) ++
      strBytes (idsString b2) =
      (strBytes (headerString b2.header) ++ b2.header.prevHash) ++
      strBytes (idsString b2) := by
    simpa [List.append_assoc] using h
  obtain ⟨hh, hp⟩ := List.append_inj' (List.append_cancel_right happ)
    (by rw [hl1, hl2])
  exact headerString_inj hp (strBytes_inj hh)

/-! ### Claim C7 -/

def cBlkTx (i : String) : Tx := ⟨i, "s", "r", 1, 10, "p", 0, 0⟩

/-- Two transactions with ids `"ab"`, `"c"`. -/
def cBlk1 : Block := ⟨⟨1, List.replicate 32 0, 0, 2, 20⟩, [cBlkTx "ab", cBlkTx "c"]⟩

/-- Two transactions with ids `"a"`, `"bc"` — same id concatenation. -/
def cBlk2 : Block := ⟨⟨1, List.replicate 32 0, 0, 2, 20⟩, [cBlkTx "a", cBlkTx "bc"]⟩

/-- Like `cBlk1` but at height 2. -/
def cBlk3 : Block := ⟨⟨2, List.replicate 32 0, 0, 2, 20⟩, [cBlkTx "ab", cBlkTx "c"]⟩

/-- C7 (counterexample): `cBlk1` and `cBlk2` differ in their transaction
ids (`["ab", "c"]` vs `["a", "bc"]`) with identical headers, yet their
hashes are equal: the ids are concatenated with no separator, so both
blocks feed the identical byte stream to SHA-256. -/
theorem C7_counterexample :
    cBlk1.transactions.map (fun t => t.id) ≠ cBlk2.transactions.map (fun t => t.id) ∧
    cBlk1.header = cBlk2.header ∧
    Block.Hash cBlk1 = Block.Hash cBlk2 := by
  refine ⟨by decide, rfl, ?_⟩
  exact congrArg sha256Bytes (by decide : blockHashInput cBlk1 = blockHashInput cBlk2)

/-- C7 (amended): `Hash` is a function of the header and the concatenated
id stream alone — blocks agreeing on those hash identically, so id or
order changes that preserve the concatenation do not change the hash; and
any two blocks with 32-byte `prev_hash` values and equal id streams that
differ in any header field (height, prev_hash, timestamp, tx_count,
gas_used) feed different byte streams to SHA-256 (their hashes then
differ unless SHA-256 itself collides, which is outside the model). -/
theorem C7_amended :
    (∀ b1 b2 : Block, b1.header = b2.header → idsString b1 = idsString b2 →
      Block.Hash b1 = Block.Hash b2) ∧
    (∀ b1 b2 : Block, b1.header.prevHash.length = 32 →
      b2.header.prevHash.length = 32 → idsString b1 = idsString b2 →
      b1.header ≠ b2.header → blockHashInput b1 ≠ blockHashInput b2) := by
  constructor
  · intro b1 b2 hh hi
    unfold Block.Hash blockHashInput
    rw [hh, hi]
  · intro b1 b2 hl1 hl2 hi hne h
    exact hne (blockHashInput_inj_header hl1 hl2 hi h)

theorem C7_amended_witness :
    Block.Hash cBlk1 = Block.Hash cBlk2 ∧
    blockHashInput cBlk1 ≠ blockHashInput cBlk3 :=
  ⟨C7_amended.1 cBlk1 cBlk2 rfl (by decide),
   C7_amended.2 cBlk1 cBlk3 (by decide) (by decide) (by decide) (by decide)⟩

/-! ### Block builder and node production loop (builder.go, node.go) -/

/-- `BuildBlock` (builder.go): select under the configured constraints; if
nothing was selected this is the `ErrEmptyBlock` case (`none`), otherwise
the header trusts the mempool's accounting.  The mempool state after the
embedded `SelectTransactions` call is returned alongside. -/
def BuildBlock (mp : Mempool) (cfg : BlockConstraints) (prevHash : List Nat)
    (height : Nat) (now : Int) : Option Block × Mempool :=
  if (mp.SelectTransactions cfg).1.transactions.length = 0 then
    (none, (mp.SelectTransactions cfg).2)
  else
    (some ⟨⟨height, prevHash, now,
        ((mp.SelectTransactions cfg).1.transactions.length : Int),
        (mp.SelectTransactions cfg).1.gasUsed⟩,
      (mp.SelectTransactions cfg).1.transactions⟩,
     (mp.SelectTransactions cfg).2)

/-- The state owned by `runBlockLoop` (node.go): the `(height, prevHash)`
cursor, the chain `n.blocks`, and the shared mempool.  `height` is a Go
`uint64`; it is embedded as an unbounded `Nat` because the chain (a Go
slice) can never reach the `2^64` blocks needed for the counter to
wrap. -/
structure NodeState where
  height : Nat
  prevHash : List Nat
  blocks : List Block
  mp : Mempool

/-- The all-zero 32-byte hash. -/
def zeroHash : List Nat := List.replicate 32 0

/-- node.go: cursor starts at `(0, all-zero)` with no blocks and an empty
mempool. -/
def initNodeState : NodeState := ⟨0, zeroHash, [], NewMempool⟩

/-- One tick of `runBlockLoop` (node.go lines 111–132): build; on
`ErrEmptyBlock` skip (the select's purges still happened); otherwise
append the block, advance `prevHash` to its hash and increment the
height. -/
def nodeTick (s : NodeState) (cfg : BlockConstraints) (now : Int) : NodeState :=
  match BuildBlock s.mp cfg s.prevHash s.height now with
  | (none, mp') => ⟨s.height, s.prevHash, s.blocks, mp'⟩
  | (some b, mp') => ⟨s.height + 1, Block.Hash b, s.blocks ++ [b], mp'⟩

/-- Node states reachable by the production loop, with arbitrary RPC
mutations of the mempool interleaved between ticks (RPC handlers never
touch the chain or the cursor). -/
inductive NodeReach (cfg : BlockConstraints) : NodeState → Prop
  | init : NodeReach cfg initNodeState
  | tick (now : Int) {s : NodeState} : NodeReach cfg s → NodeReach cfg (nodeTick s cfg now)
  | rpc (mp' : Mempool) {s : NodeState} : NodeReach cfg s →
      NodeReach cfg ⟨s.height, s.prevHash, s.blocks, mp'⟩

/-- Exact hash linking from a given starting height and previous hash:
each block carries the expected height and previous hash, and the
expectation advances to its own hash. -/
def chainLinked : Nat → List Nat → List Block → Prop
  | _, _, [] => True
  | n, ph, b :: rest =>
    b.header.height = n ∧ b.header.prevHash = ph ∧
      chainLinked (n + 1) (Block.Hash b) rest

/-- The previous-hash expectation after a list of blocks. -/
def nextPrev (ph : List Nat) : List Block → List Nat
  | [] => ph
  | b :: rest => nextPrev (Block.Hash b) rest

theorem nextPrev_append (ph : List Nat) (l : List Block) (b : Block) :
    nextPrev ph (l ++ [b]) = Block.Hash b := by
  induction l generalizing ph with
  | nil => rfl
  | cons hd tl ih => exact ih (Block.Hash hd)

theorem chainLinked_append : ∀ (l : List Block) (n : Nat) (ph : List Nat) (b : Block),
    chainLinked n ph l → b.header.height = n + l.length →
    b.header.prevHash = nextPrev ph l → chainLinked n ph (l ++ [b])
  | [], n, ph, b, _, hh, hp => ⟨by simpa using hh, hp, trivial⟩
  | hd :: tl, n, ph, b, hc, hh, hp => by
    obtain ⟨h1, h2, h3⟩ := hc
    refine ⟨h1, h2, ?_⟩
    exact chainLinked_append tl (n + 1) (Block.Hash hd) b h3
      (by simp at hh ⊢; omega) hp

/-- The loop invariant: the chain is hash-linked from `(0, zeroHash)`, the
cursor height is the chain length, and the cursor `prevHash` is the tip
hash. -/
def NodeInv (s : NodeState) : Prop :=
  chainLinked 0 zeroHash s.blocks ∧ s.height = s.blocks.length ∧
    s.prevHash = nextPrev zeroHash s.blocks

theorem nodeTick_inv {cfg : BlockConstraints} {s : NodeState} (ih : NodeInv s)
    (now : Int) : NodeInv (nodeTick s cfg now) := by
  obtain ⟨hc, hh, hp⟩ := ih
  unfold nodeTick
  rcases hb : BuildBlock s.mp cfg s.prevHash s.height now with ⟨ob, mp'⟩
  rcases ob with _ | b
  · exact ⟨hc, hh, hp⟩
  · have hbb : b.header.height = s.height ∧ b.header.prevHash = s.prevHash := by
      unfold BuildBlock at hb
      split_ifs at hb with hlen
      · simp at hb
      · rw [Prod.mk.injEq, Option.some.injEq] at hb
        rw [← hb.1]
        exact ⟨rfl, rfl⟩
    refine ⟨chainLinked_append _ 0 zeroHash b hc ?_ ?_, by simp [hh], ?_⟩
    · rw [hbb.1, hh]
      omega
    · rw [hbb.2, hp]
    · rw [nextPrev_append]

theorem nodeInv_reach {cfg : BlockConstraints} {s : NodeState}
    (h : NodeReach cfg s) : NodeInv s := by
  induction h with
  | init => exact ⟨trivial, rfl, rfl⟩
  | tick now hr ih => exact nodeTick_inv ih now
  | rpc mp' hr ih => exact ih

theorem chainLinked_get : ∀ (l : List Block) (n : Nat) (ph : List Nat),
    chainLinked n ph l → ∀ (i : Nat) (hi : i < l.length),
      (l.get ⟨i, hi⟩).header.height = n + i ∧
      (l.get ⟨i, hi⟩).header.prevHash =
        (if _hz : i = 0 then ph
         else Block.Hash (l.get ⟨i - 1, by omega⟩))
  | [], _, _, _, i, hi => absurd hi (by simp)
  | hd :: tl, n, ph, hc, 0, hi => by
    obtain ⟨h1, h2, _⟩ := hc
    simpa using ⟨h1, h2⟩
  | hd :: tl, n, ph, hc, i + 1, hi => by
    obtain ⟨h1, h2, h3⟩ := hc
    have hi' : i < tl.length := by simpa using hi
    have ih := chainLinked_get tl (n + 1) (Block.Hash hd) h3 i hi'
    have hget : (hd :: tl).get ⟨i + 1, hi⟩ = tl.get ⟨i, hi'⟩ := rfl
    constructor
    · rw [hget, ih.1]
      omega
    · rw [hget]
      rcases Nat.eq_zero_or_pos i with rfl | hipos
      · have h0 := ih.2
        rw [dif_pos rfl] at h0
        rw [dif_neg (Nat.succ_ne_zero 0), h0]
        rfl
      · have h0 := ih.2
        rw [dif_neg (by omega)] at h0
        rw [dif_neg (by omega), h0]
        obtain ⟨j, rfl⟩ : ∃ j, i = j + 1 := ⟨i - 1, by omega⟩
        rfl

/-! ### Claim C5 -/

/-- C5: in every state reachable by the node's block-production loop (with
arbitrary RPC mempool activity between ticks), the chain is contiguous and
exactly hash-linked: `blocks[i].height = i` for every index, block 0's
`prev_hash` is the all-zero 32 bytes, and `blocks[i].prev_hash` is the
hash of `blocks[i-1]` for `i > 0`. -/
theorem C5_chain_linked (cfg : BlockConstraints) (s : NodeState)
    (hs : NodeReach cfg s) :
    ∀ (i : Nat) (hi : i < s.blocks.length),
      (s.blocks.get ⟨i, hi⟩).header.height = i ∧
      (i = 0 → (s.blocks.get ⟨i, hi⟩).header.prevHash = zeroHash) ∧
      (0 < i → (s.blocks.get ⟨i, hi⟩).header.prevHash =
        Block.Hash (s.blocks.get ⟨i - 1, by omega⟩)) := by
  intro i hi
  obtain ⟨hc, _, _⟩ := nodeInv_reach hs
  have h := chainLinked_get s.blocks 0 zeroHash hc i hi
  refine ⟨by simpa using h.1, ?_, ?_⟩
  · intro hz
    subst hz
    simpa using h.2
  · intro hpos
    have := h.2
    rw [dif_neg (by omega)] at this
    exact this

theorem C5_witness :
    ((nodeTick ⟨0, zeroHash, [], mS1⟩ ⟨1000000, 1000, 0⟩ 5).blocks.get
      ⟨0, by decide⟩).header.height = 0 ∧
    ((nodeTick ⟨0, zeroHash, [], mS1⟩ ⟨1000000, 1000, 0⟩ 5).blocks.get
      ⟨0, by decide⟩).header.prevHash = zeroHash := by
  have hre : NodeReach ⟨1000000, 1000, 0⟩
      (nodeTick ⟨0, zeroHash, [], mS1⟩ ⟨1000000, 1000, 0⟩ 5) :=
    NodeReach.tick 5 (NodeReach.rpc mS1 NodeReach.init)
  have h := C5_chain_linked ⟨1000000, 1000, 0⟩ _ hre 0 (by decide)
  exact ⟨h.1, h.2.1 rfl⟩

/-! ### RPC boundary (rpc handlers and `writeRPCResult`/`writeRPCError`)

The wire values are modelled as a small JSON type; `rpcResponseJson`
mirrors Go `json.Marshal` of the `rpcResponse` struct, whose `result` and
`error` fields both carry `omitempty` (a nil result and an empty error
string are omitted). -/

inductive Json
  | null
  | str (s : String)
  | num (n : Int)
  | bool (b : Bool)
  | arr (xs : List Json)
  | obj (fields : List (String × Json))

/-- Field lookup in a JSON object. -/
def Json.lookup (j : Json) (k : String) : Option Json :=
  match j with
  | .obj fs => (fs.find? (fun f => f.1 == k)).map (fun f => f.2)
  | _ => none

/-- `json.Marshal` of `rpcResponse{Result: result, Error: err}`: both
fields are `omitempty`, in struct order `result` then `error`. -/
def rpcResponseJson (result : Option Json) (err : String) : Json :=
  Json.obj
    ((match result with | some j => [("result", j)] | none => []) ++
     (if err = "" then [] else [("error", Json.str err)]))

/-- An HTTP response: status code and JSON body. -/
structure HTTPResponse where
  status : Nat
  body : Json

/-- `writeRPCResult` (rpc handlers): wraps the given result value in a
fresh `rpcResponse` envelope with an empty error. -/
def writeRPCResult (status : Nat) (result : Json) : HTTPResponse :=
  ⟨status, rpcResponseJson (some result) ""⟩

/-- `writeRPCError`: envelope with nil result and the message. -/
def writeRPCError (status : Nat) (msg : String) : HTTPResponse :=
  ⟨status, rpcResponseJson none msg⟩

/-- `ErrTxNotFound.Error()`. -/
def errTxNotFoundMsg : String := "mempool: tx not found"

/-- `ErrTxExists.Error()`. -/
def errTxExistsMsg : String := "mempool: tx already exists"

def mpErrString : MpErr → String
  | .txExists => errTxExistsMsg
  | .txNotFound => errTxNotFoundMsg

/-- `{"ok": true}`. -/
def okJson : Json := Json.obj [("ok", Json.bool true)]

/-- `rpcTxRemove` (rpc handlers): note that the not-found branch passes a
`rpcResponse` VALUE as the `result` argument of `writeRPCResult`, which
wraps it in a second envelope. -/
def rpcTxRemove (n : Mempool) (id : String) : HTTPResponse × Mempool :=
  if id = "" then (writeRPCError 400 "id is required", n)
  else
    match n.Remove id with
    | (.error .txNotFound, n') =>
      (writeRPCResult 200 (rpcResponseJson none errTxNotFoundMsg), n')
    | (.error e, n') => (writeRPCError 400 (mpErrString e), n')
    | (.ok _, n') => (writeRPCResult 200 okJson, n')

/-- `rpcTxUpdate`: looks the id up via `List()` to preserve immutable
fields; an absent id takes the same double-wrapped not-found path. -/
def rpcTxUpdate (n : Mempool) (id : String) (fee : Nat) (now : Int) :
    HTTPResponse × Mempool :=
  if id = "" then (writeRPCError 400 "id is required", n)
  else
    match n.ListTxs.find? (fun t => t.id == id) with
    | none => (writeRPCResult 200 (rpcResponseJson none errTxNotFoundMsg), n)
    | some existing =>
      match n.Update ⟨existing.id, existing.sender, existing.recipient, fee,
          existing.gas, existing.payload, existing.createdAt, now⟩ with
      | (.ok _, n') => (writeRPCResult 200 okJson, n')
      | (.error e, n') => (writeRPCError 400 (mpErrString e), n')

/-- `txJson`: the wire shape of a transaction. -/
def txJson (t : Tx) : Json :=
  Json.obj [("ID", .str t.id), ("Sender", .str t.sender),
    ("Recipient", .str t.recipient), ("Fee", .num (t.fee : Int)),
    ("Gas", .num (t.gas : Int)), ("Payload", .str t.payload),
    ("CreatedAt", .num t.createdAt), ("Timestamp", .num t.timestamp)]

/-- `makeBlockDTO` (rpc handlers). -/
def blockDTOJson (b : Block) : Json :=
  Json.obj [("height", .num (b.header.height : Int)),
    ("prevHash", .str (hexEncode b.header.prevHash)),
    ("timestamp", .num b.header.timestamp),
    ("txCount", .num b.header.txCount),
    ("gasUsed", .num (b.header.gasUsed : Int)),
    ("hash", .str (hexEncode (Block.Hash b))),
    ("transactions", .arr (b.transactions.map txJson))]

/-- `rpcBlockGet`: linear scan by height; an absent height takes the same
double-wrapped not-found path with message `"block not found"`. -/
def rpcBlockGet (blocks : List Block) (height : Nat) : HTTPResponse :=
  match blocks.find? (fun b => b.header.height == height) with
  | none => writeRPCResult 200 (rpcResponseJson none "block not found")
  | some b => writeRPCResult 200 (Json.obj [("block", blockDTOJson b)])

/-! ### Claim C6 -/

/-- C6: the claim says a not-found `tx.update` / `tx.remove` / `block.get`
yields HTTP 200 with a populated top-level `error` and `result: null`.
The code does return status 200, but the not-found branches pass an
`rpcResponse` value to `writeRPCResult`, which wraps it in a second
envelope: the body is `{"result":{"error":"..."}}` — the top-level
`error` field is absent (omitempty on the empty string) and `result` is a
non-null object.  The repository's own CLI client reads the top-level
`error` field, so it treats these not-found responses as success. -/
theorem C6_not_found_envelope :
    ((rpcTxRemove NewMempool "deadbeef").1.status = 200 ∧
      (rpcTxRemove NewMempool "deadbeef").1.body.lookup "error" = none ∧
      (rpcTxRemove NewMempool "deadbeef").1.body.lookup "result" =
        some (Json.obj [("error", Json.str errTxNotFoundMsg)]) ∧
      (rpcTxRemove NewMempool "deadbeef").1.body.lookup "result" ≠
        some Json.null) ∧
    ((rpcTxUpdate NewMempool "deadbeef" 5 0).1.status = 200 ∧
      (rpcTxUpdate NewMempool "deadbeef" 5 0).1.body.lookup "error" = none ∧
      (rpcTxUpdate NewMempool "deadbeef" 5 0).1.body.lookup "result" =
        some (Json.obj [("error", Json.str errTxNotFoundMsg)]) ∧
      (rpcTxUpdate NewMempool "deadbeef" 5 0).1.body.lookup "result" ≠
        some Json.null) ∧
    ((rpcBlockGet [] 3).status = 200 ∧
      (rpcBlockGet [] 3).body.lookup "error" = none ∧
      (rpcBlockGet [] 3).body.lookup "result" =
        some (Json.obj [("error", Json.str "block not found")]) ∧
      (rpcBlockGet [] 3).body.lookup "result" ≠ some Json.null) := by
  refine ⟨⟨rfl, rfl, rfl, fun h => ?_⟩, ⟨rfl, rfl, rfl, fun h => ?_⟩,
    ⟨rfl, rfl, rfl, fun h => ?_⟩⟩
  · exact Json.noConfusion (Option.some.inj
      (show some (Json.obj [("error", Json.str errTxNotFoundMsg)]) =
        some Json.null from h))
  · exact Json.noConfusion (Option.some.inj
      (show some (Json.obj [("error", Json.str errTxNotFoundMsg)]) =
        some Json.null from h))
  · exact Json.noConfusion (Option.some.inj
      (show some (Json.obj [("error", Json.str "block not found")]) =
        some Json.null from h))

end Mempoor
